import Mathlib

/-!
A shallow embedding of the in-memory filesystem of `src/fs.c` from the
RISCV_OS repository, together with proofs about the claims of its
specification.

Modelling conventions:
* C strings are `List Char` (the characters strictly before the NUL).
* The static node pool `node_pool[MAX_NODES]` together with `node_count`
  is a `List Node` holding exactly the allocated entries; the separate
  global `Node root` is a distinguished extra node, so node references
  (`Node*`) are `Ref := root | pool i`.
* Every operation returns the updated filesystem state together with an
  outcome; the `uart_puts` diagnostics of the C code are mapped to the
  constructors of `FsErr` (success is `none` / `Except.ok`).
-/

namespace RiscvOS

/-- The MAX_NAME constant of fs.h. -/
def MAX_NAME : Nat := 16

/-- The MAX_FILES constant of fs.h. -/
def MAX_FILES : Nat := 16

/-- The MAX_NODES constant of fs.h. -/
def MAX_NODES : Nat := 64

/-- The PERM_READ bit of fs.h. -/
def PERM_READ : Nat := 4

/-- The PERM_WRITE bit of fs.h. -/
def PERM_WRITE : Nat := 2

/-- The PERM_EXEC bit of fs.h. -/
def PERM_EXEC : Nat := 1

/-- The PERM_RW combination of fs.h. -/
def PERM_RW : Nat := 6

/-- The PERM_RX combination of fs.h. -/
def PERM_RX : Nat := 5

/-- The PERM_RWX combination of fs.h. -/
def PERM_RWX : Nat := 7

/-- The FLAG_SYSTEM bit of fs.h. -/
def FLAG_SYSTEM : Nat := 16

/-- The FLAG_HIDDEN bit of fs.h. -/
def FLAG_HIDDEN : Nat := 32

/-- The NodeType enum of fs.h (`FILE_NODE = 0`, `DIR_NODE = 1`). -/
inductive NodeType where
  | FILE_NODE
  | DIR_NODE
deriving DecidableEq, Repr

/-- A `Node*` value: either the global `root` object or a pool slot. -/
inductive Ref where
  | root
  | pool (i : Nat)
deriving DecidableEq, Repr

/-- The Node struct of fs.h.  `child_count` is `children.length`. -/
structure Node where
  name : List Char
  type : NodeType
  content : List Char
  children : List Ref
  parent : Option Ref
  permissions : Nat
  flags : Nat
deriving DecidableEq, Repr

/-- The whole mutable state of fs.c: the global `root` node, the pool
(restricted to the `node_count` allocated slots) and the `cwd` pointer. -/
structure FS where
  rootNode : Node
  pool : List Node
  cwd : Ref
deriving DecidableEq, Repr

/-- Positional list lookup with a default (used to read pool slots). -/
def getIdx : List α → Nat → α → α
  | [], _, d => d
  | a :: _, 0, _ => a
  | _ :: t, n + 1, d => getIdx t n d

/-- Positional list update (used to write pool slots); out of range is a
no-op, matching the fact that valid references never go out of range. -/
def setIdx : List α → Nat → α → List α
  | [], _, _ => []
  | _ :: t, 0, v => v :: t
  | a :: t, n + 1, v => a :: setIdx t n v

/-- The all-zero node produced by `fs_alloc_node`: zeroed name and
content, no children, no parent, default permissions read+write, no
flags; the zeroed `type` field reads as `FILE_NODE` (enum value 0). -/
def emptyNode : Node :=
  { name := [], type := .FILE_NODE, content := [], children := [],
    parent := none, permissions := PERM_RW, flags := 0 }

/-- Dereference a node pointer. -/
def getNode (fs : FS) : Ref → Node
  | .root => fs.rootNode
  | .pool i => getIdx fs.pool i emptyNode

/-- Store through a node pointer. -/
def setNode (fs : FS) : Ref → Node → FS
  | .root, n => { fs with rootNode := n }
  | .pool i, n => { fs with pool := setIdx fs.pool i n }

/-- fs_alloc_node of fs.c: bump allocation from the static pool, failing
once `node_count` reaches MAX_NODES. -/
def fs_alloc_node (fs : FS) : FS × Option Ref :=
  if fs.pool.length ≥ MAX_NODES then (fs, none)
  else ({ fs with pool := fs.pool ++ [emptyNode] }, some (.pool fs.pool.length))

/-- fs_can_read of fs.c. -/
def fs_can_read (n : Node) : Bool := n.permissions &&& PERM_READ ≠ 0

/-- fs_can_write of fs.c. -/
def fs_can_write (n : Node) : Bool := n.permissions &&& PERM_WRITE ≠ 0

/-- fs_can_exec of fs.c. -/
def fs_can_exec (n : Node) : Bool := n.permissions &&& PERM_EXEC ≠ 0

/-- fs_is_system of fs.c. -/
def fs_is_system (n : Node) : Bool := n.flags &&& FLAG_SYSTEM ≠ 0

/-- fs_is_hidden of fs.c. -/
def fs_is_hidden (n : Node) : Bool := n.flags &&& FLAG_HIDDEN ≠ 0

/-- fs_init of fs.c: pool slot 0 is allocated for the initial root,
copied by value into the global `root` (so slot 0 stays an orphan
snapshot), then the protected system tree `/bin`, `/etc`, `/home`,
`/tmp` and `/etc/passwd` is created; `cwd` is the global root. -/
def fs_init : FS :=
  let r : Node :=
    { emptyNode with type := .DIR_NODE, permissions := PERM_RWX, flags := FLAG_SYSTEM }
  let bin : Node :=
    { emptyNode with
      type := .DIR_NODE, permissions := PERM_RX, flags := FLAG_SYSTEM,
      parent := some .root, name := "bin".toList }
  let etcDir : Node :=
    { emptyNode with
      type := .DIR_NODE, permissions := PERM_RX, flags := FLAG_SYSTEM,
      parent := some .root, name := "etc".toList, children := [.pool 5] }
  let home : Node :=
    { emptyNode with
      type := .DIR_NODE, permissions := PERM_RWX, flags := 0,
      parent := some .root, name := "home".toList }
  let tmpDir : Node :=
    { emptyNode with
      type := .DIR_NODE, permissions := PERM_RWX, flags := 0,
      parent := some .root, name := "tmp".toList }
  let passwd : Node :=
    { emptyNode with
      type := .FILE_NODE, permissions := PERM_READ, flags := FLAG_SYSTEM,
      parent := some (.pool 2), name := "passwd".toList,
      content := "root:x:0:0:root:/root:/bin/sh".toList }
  { rootNode := { r with children := [.pool 1, .pool 2, .pool 3, .pool 4] },
    pool := [r, bin, etcDir, home, tmpDir, passwd],
    cwd := .root }

/-- fs_find of fs.c: linear scan of a directory's children for the first
exact name match. -/
def fs_find (fs : FS) (dir : Ref) (name : List Char) : Option Ref :=
  (getNode fs dir).children.find? (fun c => (getNode fs c).name == name)

/-- The component-splitting loop of fs_traverse_path (fs.c lines
145-206), as a pure function from the path to the list of non-empty
components.  The accumulator `acc` is the pending component held in
`temp` (its length is the loop variable `i`, capped at MAX_NAME-1); when
the string ends without a trailing slash the final character is appended
unconditionally, so a component can reach MAX_NAME characters. -/
def componentsAux : List Char → List Char → List (List Char)
  | [], _ => []
  | c :: rest, acc =>
    if c = '/' ∨ rest = [] then
      let comp := if rest = [] ∧ c ≠ '/' then acc ++ [c] else acc
      if comp = [] then componentsAux rest []
      else comp :: componentsAux rest []
    else
      componentsAux rest (if acc.length < MAX_NAME - 1 then acc ++ [c] else acc)

/-- The components of a path, as produced by fs_traverse_path's loop. -/
def pathComponents (p : List Char) : List (List Char) := componentsAux p []

/-- The sequence of indices written into the 16-byte `temp` buffer by
fs_traverse_path's loop: `temp[i++] = *path` while building (guarded by
`i < MAX_NAME-1`), `temp[len++] = *path` for a final character of a path
ending without a slash (unguarded), and the terminator `temp[len] = 0`
(unguarded) at every component boundary. -/
def tempWritesAux : List Char → Nat → List Nat
  | [], _ => []
  | c :: rest, i =>
    if c = '/' ∨ rest = [] then
      let w1 : List Nat := if rest = [] ∧ c ≠ '/' then [i] else []
      let len : Nat := if rest = [] ∧ c ≠ '/' then i + 1 else i
      w1 ++ [len] ++ tempWritesAux rest 0
    else
      (if i < MAX_NAME - 1 then [i] else []) ++
        tempWritesAux rest (if i < MAX_NAME - 1 then i + 1 else i)

/-- All indices written into `temp` while fs_traverse_path splits the
given path (the writes of the splitting loop itself, performed before
any tree lookup can exit the loop early). -/
def fs_traverse_path_temp_writes (p : List Char) : List Nat := tempWritesAux p 0

/-- The walk of fs_traverse_path over the already split components:
`.` is a no-op, `..` moves to the parent when there is one, a normal
name is looked up with fs_find (auto-created as a directory when
`create` is set, failing when the pool is exhausted) and must be a
directory.  With `create = false` the state is returned unchanged. -/
def traverseComps (create : Bool) : FS → Ref → List (List Char) → FS × Option Ref
  | fs, current, [] => (fs, some current)
  | fs, current, comp :: rest =>
    if comp = ['.'] then traverseComps create fs current rest
    else if comp = ['.', '.'] then
      match (getNode fs current).parent with
      | some p => traverseComps create fs p rest
      | none => traverseComps create fs current rest
    else
      match fs_find fs current comp with
      | some child =>
        if (getNode fs child).type ≠ NodeType.DIR_NODE then (fs, none)
        else traverseComps create fs child rest
      | none =>
        if create then
          match fs_alloc_node fs with
          | (fs1, none) => (fs1, none)
          | (fs1, some child) =>
            let fs2 := setNode fs1 child
              { getNode fs1 child with
                type := .DIR_NODE, parent := some current, name := comp }
            let cur := getNode fs2 current
            let fs3 := setNode fs2 current { cur with children := cur.children ++ [child] }
            traverseComps create fs3 child rest
        else (fs, none)

/-- fs_traverse_path of fs.c: start at the root for an absolute path and
at `cwd` otherwise, then walk the components. -/
def fs_traverse_path (fs : FS) (path : List Char) (create : Bool) : FS × Option Ref :=
  let start := if path.head? = some '/' then Ref.root else fs.cwd
  traverseComps create fs start (pathComponents path)

/-- The index of the last '/' of a path, if any (the `last_slash`
scan shared by mkdir/touch/write/cat/fs_find_with_parent). -/
def lastSlashIdx : List Char → Option Nat
  | [] => none
  | c :: rest =>
    match lastSlashIdx rest with
    | some i => some (i + 1)
    | none => if c = '/' then some 0 else none

/-- The split of a path into parent path and final-component name used
by every operation of fs.c: everything before the last slash is the
parent path, the name is what follows, copied up to MAX_NAME-1
characters.  (In fs_mkdir's slash-free branch the copy loop is also
bounded by MAX_NAME-1 but the NUL terminator is stored at index
`strlen(path)`, which is out of bounds for paths of 16 or more
characters — recorded separately by `fs_mkdir_name_writes` for claim
C4; the behaviour modelled here is the in-bounds case.) -/
def splitParentName (path : List Char) : List Char × List Char :=
  match lastSlashIdx path with
  | none => ([], path.take (MAX_NAME - 1))
  | some i => (path.take i, (path.drop (i + 1)).take (MAX_NAME - 1))

/-- The indices written into fs_mkdir's 16-byte `new_dir_name` buffer:
in the slash-free branch the copy loop writes indices `0..min(len,15)`
and the terminator is stored at `strlen(path)`; in the slash branch the
copy loop and terminator stay below MAX_NAME. -/
def fs_mkdir_name_writes (path : List Char) : List Nat :=
  match lastSlashIdx path with
  | none => List.range (min path.length (MAX_NAME - 1)) ++ [path.length]
  | some i =>
    let nameLen := min (path.length - (i + 1)) (MAX_NAME - 1)
    List.range nameLen ++ [nameLen]

/-- The outcome classes of the operations; each constructor corresponds
to one family of `uart_puts` diagnostics of fs.c. -/
inductive FsErr where
  | notFound          -- "No such directory in path!", "... does not exist!"
  | notADirectory     -- "Path component is not a directory!"
  | permissionDenied  -- "Permission denied: ..."
  | alreadyExists     -- "Name already exists!"
  | directoryFull     -- "Directory full!"
  | exhausted         -- "Node limit reached!"
  | wrongType         -- "Not a file!..." / "Not a directory!..."
  | notEmpty          -- "Directory not empty!"
  | usage             -- "Usage: ..."
  | noFilename        -- "Error: No filename provided."
  | invalidValue      -- "Invalid permissions! Use 0-7."
deriving DecidableEq, Repr

/-- The parent-directory lookup `(*parent_path) ? fs_traverse_path(parent_path, 0) : cwd`
shared by the path-splitting operations of fs.c. -/
def resolveParent (fs : FS) (parentPath : List Char) : FS × Option Ref :=
  if parentPath ≠ [] then fs_traverse_path fs parentPath false
  else (fs, some fs.cwd)

/-- Allocation and attachment of a fresh node (the success tail of
fs_mkdir and fs_touch_internal): take a zeroed node from the pool, set
its fields, and append it to the parent's children. -/
def attachNew (fs : FS) (parent : Ref) (nm : List Char) (ty : NodeType)
    (perms : Nat) : FS :=
  let child : Ref := .pool fs.pool.length
  let fs1 : FS := { fs with pool := fs.pool ++ [emptyNode] }
  let fs2 := setNode fs1 child
    { getNode fs1 child with
      type := ty, parent := some parent, permissions := perms, flags := 0, name := nm }
  let p := getNode fs2 parent
  setNode fs2 parent { p with children := p.children ++ [child] }

/-- fs_mkdir of fs.c. -/
def fs_mkdir (fs : FS) (path : List Char) : FS × Option FsErr :=
  let (parentPath, nm) := splitParentName path
  match resolveParent fs parentPath with
  | (fs1, none) => (fs1, some .notFound)
  | (fs1, some parent) =>
    if ¬ fs_can_write (getNode fs1 parent) then (fs1, some .permissionDenied)
    else if (fs_find fs1 parent nm).isSome then (fs1, some .alreadyExists)
    else if (getNode fs1 parent).children.length ≥ MAX_FILES then (fs1, some .directoryFull)
    else if fs1.pool.length ≥ MAX_NODES then (fs1, some .exhausted)
    else (attachNew fs1 parent nm .DIR_NODE PERM_RWX, none)

/-- fs_touch_internal of fs.c: skip leading spaces, refuse an empty
name, then create a FILE node exactly like fs_mkdir creates a DIR. -/
def fs_touch_internal (fs : FS) (path : List Char) (perms : Nat) : FS × Option FsErr :=
  let path := path.dropWhile (· = ' ')
  if path = [] then (fs, some .noFilename)
  else
    let (parentPath, nm) := splitParentName path
    match resolveParent fs parentPath with
    | (fs1, none) => (fs1, some .notFound)
    | (fs1, some parent) =>
      if ¬ fs_can_write (getNode fs1 parent) then (fs1, some .permissionDenied)
      else if (fs_find fs1 parent nm).isSome then (fs1, some .alreadyExists)
      else if (getNode fs1 parent).children.length ≥ MAX_FILES then (fs1, some .directoryFull)
      else if fs1.pool.length ≥ MAX_NODES then (fs1, some .exhausted)
      else (attachNew fs1 parent nm .FILE_NODE perms, none)

/-- fs_touch of fs.c. -/
def fs_touch (fs : FS) (path : List Char) : FS × Option FsErr :=
  fs_touch_internal fs path PERM_RW

/-- fs_touch_with_perms of fs.c. -/
def fs_touch_with_perms (fs : FS) (path : List Char) (perms : Nat) : FS × Option FsErr :=
  fs_touch_internal fs path perms

/-- fs_ls_internal of fs.c, returning the listed names instead of
printing them; a failure lists nothing. -/
def fs_ls_internal (fs : FS) (path : List Char) (showHidden : Bool) :
    Except FsErr (List (List Char)) :=
  let dirOpt := if path = [] then some fs.cwd else (fs_traverse_path fs path false).2
  match dirOpt with
  | none => .error .notFound
  | some dir =>
    if ¬ fs_can_read (getNode fs dir) then .error .permissionDenied
    else .ok (((getNode fs dir).children.filter
        (fun c => showHidden || ! fs_is_hidden (getNode fs c))).map
        (fun c => (getNode fs c).name))

/-- fs_ls of fs.c. -/
def fs_ls (fs : FS) (path : List Char) : Except FsErr (List (List Char)) :=
  fs_ls_internal fs path false

/-- fs_ls_all of fs.c. -/
def fs_ls_all (fs : FS) (path : List Char) : Except FsErr (List (List Char)) :=
  fs_ls_internal fs path true

/-- fs_cd of fs.c. -/
def fs_cd (fs : FS) (path : List Char) : FS × Option FsErr :=
  match fs_traverse_path fs path false with
  | (fs1, none) => (fs1, some .notFound)
  | (fs1, some target) =>
    if ¬ fs_can_exec (getNode fs1 target) then (fs1, some .permissionDenied)
    else ({ fs1 with cwd := target }, none)

/-- fs_pwd_recursive of fs.c: the C function recurses up the parent
chain without any bound; the model takes explicit fuel, which
`fs_pwd` instantiates with a value sufficient for every well-formed
state.  A node without a parent prints "/"; every frame below the
(address-compared) global root then appends '/' and its name. -/
def fs_pwd_recursive (fs : FS) : Nat → Ref → List Char
  | 0, _ => []
  | fuel + 1, r =>
    match (getNode fs r).parent with
    | none => ['/']
    | some p =>
      fs_pwd_recursive fs fuel p ++
        (if r ≠ Ref.root then '/' :: (getNode fs r).name else [])

/-- fs_pwd of fs.c: render the cwd path and append a newline. -/
def fs_pwd (fs : FS) : List Char :=
  fs_pwd_recursive fs (fs.pool.length + 1) fs.cwd ++ ['\n']

/-- fs_write of fs.c: split the path, find the file under the parent,
require it to be a FILE with the Write bit, then copy at most 127
characters of the text into the content buffer, NUL-terminated. -/
def fs_write (fs : FS) (path text : List Char) : FS × Option FsErr :=
  let (parentPath, fileName) := splitParentName path
  match resolveParent fs parentPath with
  | (fs1, none) => (fs1, some .notFound)
  | (fs1, some parent) =>
    match fs_find fs1 parent fileName with
    | none => (fs1, some .notFound)
    | some file =>
      let f := getNode fs1 file
      if f.type ≠ NodeType.FILE_NODE then (fs1, some .wrongType)
      else if ¬ fs_can_write f then (fs1, some .permissionDenied)
      else (setNode fs1 file { f with content := text.take 127 }, none)

/-- fs_cat of fs.c, returning the printed content. -/
def fs_cat (fs : FS) (path : List Char) : Except FsErr (List Char) :=
  let (parentPath, fileName) := splitParentName path
  match resolveParent fs parentPath with
  | (_, none) => .error .notFound
  | (fs1, some parent) =>
    match fs_find fs1 parent fileName with
    | none => .error .notFound
    | some file =>
      let f := getNode fs1 file
      if f.type ≠ NodeType.FILE_NODE then .error .wrongType
      else if ¬ fs_can_read f then .error .permissionDenied
      else .ok f.content

/-- fs_find_with_parent of fs.c: resolve the parent path and look the
final component up in it, returning both. -/
def fs_find_with_parent (fs : FS) (path : List Char) : FS × Option (Ref × Ref) :=
  let (parentPath, nm) := splitParentName path
  match resolveParent fs parentPath with
  | (fs1, none) => (fs1, none)
  | (fs1, some parent) =>
    match fs_find fs1 parent nm with
    | none => (fs1, none)
    | some node => (fs1, some (parent, node))

/-- Removal of the first occurrence of a child pointer from a children
array (the shift loop of fs_rm/fs_rmdir). -/
def removeFirst : List Ref → Ref → List Ref
  | [], _ => []
  | c :: rest, x => if c = x then rest else c :: removeFirst rest x

/-- Detaching a child from a parent's children array. -/
def detachChild (fs : FS) (parent child : Ref) : FS :=
  let p := getNode fs parent
  setNode fs parent { p with children := removeFirst p.children child }

/-- fs_rm of fs.c: empty path is a usage error; the target must exist,
be a FILE, not be System-flagged, and the parent must be writable; then
the file is detached (remaining siblings keep their order). -/
def fs_rm (fs : FS) (path : List Char) : FS × Option FsErr :=
  if path = [] then (fs, some .usage)
  else
    match fs_find_with_parent fs path with
    | (fs1, none) => (fs1, some .notFound)
    | (fs1, some (parent, file)) =>
      if (getNode fs1 file).type ≠ NodeType.FILE_NODE then (fs1, some .wrongType)
      else if fs_is_system (getNode fs1 file) then (fs1, some .permissionDenied)
      else if ¬ fs_can_write (getNode fs1 parent) then (fs1, some .permissionDenied)
      else (detachChild fs1 parent file, none)

/-- fs_rmdir of fs.c: like fs_rm but for an empty DIR node. -/
def fs_rmdir (fs : FS) (path : List Char) : FS × Option FsErr :=
  if path = [] then (fs, some .usage)
  else
    match fs_find_with_parent fs path with
    | (fs1, none) => (fs1, some .notFound)
    | (fs1, some (parent, dir)) =>
      if (getNode fs1 dir).type ≠ NodeType.DIR_NODE then (fs1, some .wrongType)
      else if fs_is_system (getNode fs1 dir) then (fs1, some .permissionDenied)
      else if ¬ fs_can_write (getNode fs1 parent) then (fs1, some .permissionDenied)
      else if (getNode fs1 dir).children.length > 0 then (fs1, some .notEmpty)
      else (detachChild fs1 parent dir, none)

/-- fs_chmod of fs.c: empty path and out-of-range values are rejected
first, then the node is resolved; System-flagged nodes are refused, and
otherwise the permission set is replaced. -/
def fs_chmod (fs : FS) (path : List Char) (perms : Nat) : FS × Option FsErr :=
  if path = [] then (fs, some .usage)
  else if perms > 7 then (fs, some .invalidValue)
  else
    match fs_find_with_parent fs path with
    | (fs1, none) => (fs1, some .notFound)
    | (fs1, some (_, node)) =>
      if fs_is_system (getNode fs1 node) then (fs1, some .permissionDenied)
      else (setNode fs1 node { getNode fs1 node with permissions := perms }, none)

/-- Modelled from the spec: `fs_get_executable` is declared in src/fs.h
("Returns pointer to file content if file exists and is executable,
NULL otherwise") but its definition is not among the sources under
src/.  Per spec section 6 it returns file content only if the file
exists, is a File, and has Execute permission; the path is resolved the
way every file operation of fs.c resolves paths, through the
parent-path / final-component split. -/
def fs_get_executable (fs : FS) (path : List Char) : Option (List Char) :=
  match fs_find_with_parent fs path with
  | (_, none) => none
  | (fs1, some (_, node)) =>
    if (getNode fs1 node).type = NodeType.FILE_NODE ∧ fs_can_exec (getNode fs1 node) = true
    then some (getNode fs1 node).content
    else none

/-- A reference into the live part of the state. -/
def validRef (fs : FS) : Ref → Prop
  | .root => True
  | .pool i => i < fs.pool.length

instance instDecidableValidRef (fs : FS) (r : Ref) : Decidable (validRef fs r) :=
  match r with
  | .root => isTrue trivial
  | .pool i => inferInstanceAs (Decidable (i < fs.pool.length))

/-- Reachability from the global root along child links. -/
inductive Reach (fs : FS) : Ref → Prop where
  | root : Reach fs .root
  | child {r c : Ref} : Reach fs r → c ∈ (getNode fs r).children → Reach fs c

/-- A bound on the length of a parent chain starting at a reference
(pool slots always point upwards to strictly older slots or the root). -/
def refBound : Ref → Nat
  | .root => 0
  | .pool i => i + 1

/-- The structural well-formedness invariant of a filesystem state,
established by `fs_init` and preserved by every operation (except that a
successful `rmdir` of the cwd breaks `cwdReach`, see claim C1). -/
structure WF (fs : FS) : Prop where
  rootParent : fs.rootNode.parent = none
  rootDir : fs.rootNode.type = NodeType.DIR_NODE
  childPool : ∀ r : Ref, ∀ c ∈ (getNode fs r).children,
    c ≠ Ref.root ∧ refBound c ≤ fs.pool.length
  parentConsistent : ∀ r : Ref, ∀ c ∈ (getNode fs r).children,
    (getNode fs c).parent = some r
  parentMono : ∀ i : Nat, ∀ p : Ref,
    (getNode fs (Ref.pool i)).parent = some p → refBound p ≤ i
  parentDir : ∀ r p : Ref, (getNode fs r).parent = some p →
    (getNode fs p).type = NodeType.DIR_NODE
  fileNoChildren : ∀ r : Ref, (getNode fs r).type = NodeType.FILE_NODE →
    (getNode fs r).children = []
  cwdReach : Reach fs fs.cwd
  cwdDir : (getNode fs fs.cwd).type = NodeType.DIR_NODE

/-- The shell-level operation alphabet of fs.c (the read-only
operations ls/ls_all/pwd/cat/stat only print, so applying them leaves
the state unchanged). -/
inductive Op where
  | mkdir (p : List Char)
  | touch (p : List Char)
  | touchPerms (p : List Char) (perms : Nat)
  | ls (p : List Char)
  | lsAll (p : List Char)
  | cd (p : List Char)
  | pwd
  | write (p t : List Char)
  | cat (p : List Char)
  | rm (p : List Char)
  | rmdir (p : List Char)
  | chmod (p : List Char) (perms : Nat)
  | stat (p : List Char)
deriving DecidableEq, Repr

/-- The state after applying one operation. -/
def applyOp (fs : FS) : Op → FS
  | .mkdir p => (fs_mkdir fs p).1
  | .touch p => (fs_touch fs p).1
  | .touchPerms p perms => (fs_touch_with_perms fs p perms).1
  | .ls _ => fs
  | .lsAll _ => fs
  | .cd p => (fs_cd fs p).1
  | .pwd => fs
  | .write p t => (fs_write fs p t).1
  | .cat _ => fs
  | .rm p => (fs_rm fs p).1
  | .rmdir p => (fs_rmdir fs p).1
  | .chmod p perms => (fs_chmod fs p perms).1
  | .stat _ => fs

/-- Whether `fs_rmdir fs p` would detach the current directory itself:
the path resolves to the cwd and every guard of fs_rmdir passes. -/
def removesCwd (fs : FS) (p : List Char) : Bool :=
  match (fs_find_with_parent fs p).2 with
  | some (parent, nd) =>
    ¬ p = [] ∧ nd = fs.cwd ∧
    (getNode fs nd).type = NodeType.DIR_NODE ∧
    fs_is_system (getNode fs nd) = false ∧
    fs_can_write (getNode fs parent) = true ∧
    (getNode fs nd).children.length = 0
  | none => false

/-- An operation that does not detach the current directory. -/
def opSafeB (fs : FS) : Op → Bool
  | .rmdir p => ! removesCwd fs p
  | _ => true

/-- Every step of the sequence is safe in the state it runs in. -/
def safeSeq (fs : FS) : List Op → Bool
  | [] => true
  | op :: rest => opSafeB fs op && safeSeq (applyOp fs op) rest

/-- Path normalization as stated by the spec round-trip property:
slashes were already collapsed by the component split, and this removes
the `.` components. -/
def normalizeComps (cs : List (List Char)) : List (List Char) :=
  cs.filter (fun c => ! (c == ['.']))

/-- Rendering of a non-root absolute path from its components the way
fs_pwd_recursive emits it below the root frame: each component is
preceded by a slash. -/
def renderAbs (cs : List (List Char)) : List Char :=
  (cs.map (fun c => '/' :: c)).flatten

/-- The state of claim C1's counterexample: after `cd home`, `rmdir
../home` resolves the current directory itself and detaches it. -/
def C1_bad : FS :=
  (fs_rmdir (fs_cd fs_init "home".toList).1 "../home".toList).1

/-- The references that remain reachable in `C1_bad`. -/
def C1_live : List Ref :=
  [Ref.root, Ref.pool 1, Ref.pool 2, Ref.pool 4, Ref.pool 5]

/-- A safe operation sequence used to witness the amended claim C1. -/
def C1_ops : List Op :=
  [Op.cd "home".toList,
   Op.mkdir "x".toList,
   Op.touch "x/f.txt".toList,
   Op.write "x/f.txt".toList "hi".toList,
   Op.chmod "x/f.txt".toList 4,
   Op.rm "x/f.txt".toList,
   Op.cd "/".toList,
   Op.rmdir "home/x".toList]

/-- Operations that exhaust the node arena: after fs_init's 6 bootstrap
nodes, 58 more directories bring the pool to MAX_NODES. -/
def C5_ops : List Op :=
  Op.mkdir "p".toList ::
    ((List.range 16).map (fun k => Op.mkdir ("p/c" ++ toString k).toList) ++
     (List.range 16).map (fun k => Op.mkdir ("p/c0/d" ++ toString k).toList) ++
     (List.range 16).map (fun k => Op.mkdir ("p/c1/e" ++ toString k).toList) ++
     (List.range 9).map (fun k => Op.mkdir ("p/c2/f" ++ toString k).toList))

/-- A state whose arena holds exactly MAX_NODES nodes. -/
def C5_fs64 : FS := C5_ops.foldl applyOp fs_init

/-- A state with one directory per disabled permission bit: `home/nr`
lacks Read, `home/nw` lacks Write (and holds a file and a
subdirectory), `home/nx` lacks Execute. -/
def C6_fs : FS :=
  [Op.mkdir "home/nr".toList,
   Op.mkdir "home/nw".toList,
   Op.mkdir "home/nw/sd".toList,
   Op.touch "home/nw/f".toList,
   Op.mkdir "home/nx".toList,
   Op.chmod "home/nr".toList 3,
   Op.chmod "home/nw".toList 5,
   Op.chmod "home/nx".toList 6].foldl applyOp fs_init

/-- The docs/a.txt scenario state: `mkdir docs`, `touch docs/a.txt`,
`write docs/a.txt hello`, `chmod docs/a.txt 4`. -/
def C7_s : FS :=
  [Op.mkdir "docs".toList,
   Op.touch "docs/a.txt".toList,
   Op.write "docs/a.txt".toList "hello".toList,
   Op.chmod "docs/a.txt".toList 4].foldl applyOp fs_init

/-- A state holding one executable file `home/run` with content "hi". -/
def C8_fs : FS :=
  (fs_write (fs_touch_with_perms fs_init "home/run".toList 7).1
    "home/run".toList "hi".toList).1

/-! Section: Basic lemmas about the pool primitives -/

theorem length_setIdx (l : List α) (i : Nat) (v : α) :
    (setIdx l i v).length = l.length := by
  induction l generalizing i with
  | nil => rfl
  | cons a t ih =>
    cases i with
    | zero => rfl
    | succ n => simp [setIdx, ih]

theorem getIdx_setIdx_self (l : List α) (i : Nat) (v d : α) (h : i < l.length) :
    getIdx (setIdx l i v) i d = v := by
  induction l generalizing i with
  | nil => simp at h
  | cons a t ih =>
    cases i with
    | zero => rfl
    | succ n => exact ih n (by simpa using h)

theorem getIdx_setIdx_of_ne (l : List α) (i j : Nat) (v d : α) (h : j ≠ i) :
    getIdx (setIdx l i v) j d = getIdx l j d := by
  induction l generalizing i j with
  | nil => rfl
  | cons a t ih =>
    cases i with
    | zero =>
      cases j with
      | zero => exact absurd rfl h
      | succ m => rfl
    | succ n =>
      cases j with
      | zero => rfl
      | succ m => exact ih n m (fun hmn => h (by rw [hmn]))

theorem setIdx_of_length_le (l : List α) (i : Nat) (v : α) (h : l.length ≤ i) :
    setIdx l i v = l := by
  induction l generalizing i with
  | nil => rfl
  | cons a t ih =>
    cases i with
    | zero => simp at h
    | succ n => simp [setIdx, ih n (by simpa using h)]

theorem getIdx_of_length_le (l : List α) (i : Nat) (d : α) (h : l.length ≤ i) :
    getIdx l i d = d := by
  induction l generalizing i with
  | nil => rfl
  | cons a t ih =>
    cases i with
    | zero => simp at h
    | succ n => exact ih n (by simpa using h)

theorem getIdx_append_lt (l₁ l₂ : List α) (i : Nat) (d : α) (h : i < l₁.length) :
    getIdx (l₁ ++ l₂) i d = getIdx l₁ i d := by
  induction l₁ generalizing i with
  | nil => simp at h
  | cons a t ih =>
    cases i with
    | zero => rfl
    | succ n => exact ih n (by simpa using h)

theorem getIdx_append_length (l : List α) (v d : α) :
    getIdx (l ++ [v]) l.length d = v := by
  induction l with
  | nil => rfl
  | cons a t ih => simpa using ih

theorem mem_of_mem_removeFirst {l : List Ref} {x c : Ref}
    (h : c ∈ removeFirst l x) : c ∈ l := by
  induction l with
  | nil => simp [removeFirst] at h
  | cons a t ih =>
    by_cases hax : a = x
    · subst hax; simp [removeFirst] at h; simp [h]
    · simp [removeFirst, hax] at h
      rcases h with h | h
      · simp [h]
      · simp [ih h]

theorem mem_removeFirst_of_mem {l : List Ref} {x c : Ref}
    (hc : c ∈ l) (hne : c ≠ x) : c ∈ removeFirst l x := by
  induction l with
  | nil => simp at hc
  | cons a t ih =>
    by_cases hax : a = x
    · subst hax
      simp [removeFirst]
      rcases List.mem_cons.mp hc with h | h
      · exact absurd h hne
      · exact h
    · simp [removeFirst, hax]
      rcases List.mem_cons.mp hc with h | h
      · exact Or.inl h
      · exact Or.inr (ih h)

/-! Section: Lemmas about node dereference and update -/

theorem getNode_setNode_self (fs : FS) {r : Ref} (n : Node) (h : validRef fs r) :
    getNode (setNode fs r n) r = n := by
  cases r with
  | root => rfl
  | pool i => exact getIdx_setIdx_self _ _ _ _ h

theorem getNode_setNode_ne (fs : FS) {r x : Ref} (n : Node) (h : x ≠ r) :
    getNode (setNode fs r n) x = getNode fs x := by
  cases r with
  | root =>
    cases x with
    | root => exact absurd rfl h
    | pool j => rfl
  | pool i =>
    cases x with
    | root => rfl
    | pool j =>
      exact getIdx_setIdx_of_ne _ _ _ _ _ (fun hji => h (by rw [hji]))

theorem setNode_of_not_valid (fs : FS) {r : Ref} (n : Node) (h : ¬ validRef fs r) :
    setNode fs r n = fs := by
  cases r with
  | root => exact absurd trivial h
  | pool i =>
    show { fs with pool := setIdx fs.pool i n } = fs
    rw [setIdx_of_length_le _ _ _ (Nat.le_of_not_lt h)]

theorem setNode_cwd (fs : FS) (r : Ref) (n : Node) : (setNode fs r n).cwd = fs.cwd := by
  cases r <;> rfl

theorem setNode_pool_length (fs : FS) (r : Ref) (n : Node) :
    (setNode fs r n).pool.length = fs.pool.length := by
  cases r with
  | root => rfl
  | pool i => exact length_setIdx _ _ _

theorem getNode_cwd_update (fs : FS) (t r : Ref) :
    getNode { fs with cwd := t } r = getNode fs r := by
  cases r <;> rfl

/-! Section: Reachability from the root and the well-formedness invariant -/

theorem reach_valid {fs : FS} (hwf : WF fs) {r : Ref} (hr : Reach fs r) :
    validRef fs r := by
  induction hr with
  | root => trivial
  | child hq hc ih =>
    rename_i q c
    rcases hwf.childPool q c hc with ⟨hcr, hb⟩
    cases c with
    | root => exact absurd rfl hcr
    | pool j => exact Nat.lt_of_succ_le hb

theorem reach_parent {fs : FS} (hwf : WF fs) {r : Ref} (hr : Reach fs r) :
    ∀ p : Ref, (getNode fs r).parent = some p → Reach fs p := by
  induction hr with
  | root =>
    intro p hp
    rw [show getNode fs Ref.root = fs.rootNode from rfl, hwf.rootParent] at hp
    cases hp
  | child hq hc ih =>
    rename_i q c
    intro p hp
    rw [hwf.parentConsistent q c hc] at hp
    cases hp
    exact hq

/-! Section: Purity of lookups: with `create = false` no operation that only
resolves paths changes the state -/

theorem traverseComps_fst (fs : FS) (r : Ref) (cs : List (List Char)) :
    (traverseComps false fs r cs).1 = fs := by
  induction cs generalizing fs r with
  | nil => rfl
  | cons c rest ih =>
    simp only [traverseComps]
    split
    · exact ih fs r
    · split
      · split
        · exact ih fs _
        · exact ih fs r
      · split
        · split
          · rfl
          · exact ih fs _
        · rfl

theorem fs_traverse_path_fst (fs : FS) (p : List Char) :
    (fs_traverse_path fs p false).1 = fs := by
  simp only [fs_traverse_path]
  exact traverseComps_fst fs _ _

theorem resolveParent_fst (fs : FS) (pp : List Char) :
    (resolveParent fs pp).1 = fs := by
  simp only [resolveParent]
  split
  · exact fs_traverse_path_fst fs pp
  · rfl

theorem fs_find_with_parent_fst (fs : FS) (p : List Char) :
    (fs_find_with_parent fs p).1 = fs := by
  simp only [fs_find_with_parent]
  rcases hrp : resolveParent fs (splitParentName p).1 with ⟨fs1, po⟩
  have h1 : fs1 = fs := by
    have := resolveParent_fst fs (splitParentName p).1
    rw [hrp] at this
    exact this
  cases po with
  | none => simpa using h1
  | some parent =>
    cases hfind : fs_find fs1 parent (splitParentName p).2 <;> simpa [hfind] using h1

/-! Section: Soundness of path traversal: a resolved node is reachable and a
directory -/

theorem fs_find_mem {fs : FS} {dir c : Ref} {nm : List Char}
    (h : fs_find fs dir nm = some c) : c ∈ (getNode fs dir).children := by
  exact List.mem_of_find?_eq_some h

theorem fs_find_name {fs : FS} {dir c : Ref} {nm : List Char}
    (h : fs_find fs dir nm = some c) : (getNode fs c).name = nm := by
  have := List.find?_some h
  simpa using this

theorem traverseComps_sound {fs : FS} (hwf : WF fs) :
    ∀ (cs : List (List Char)) (r t : Ref), Reach fs r →
      (getNode fs r).type = NodeType.DIR_NODE →
      (traverseComps false fs r cs).2 = some t →
      Reach fs t ∧ (getNode fs t).type = NodeType.DIR_NODE := by
  intro cs
  induction cs with
  | nil =>
    intro r t hr hd ht
    simp only [traverseComps] at ht
    cases ht
    exact ⟨hr, hd⟩
  | cons c rest ih =>
    intro r t hr hd ht
    simp only [traverseComps] at ht
    by_cases h1 : c = ['.']
    · rw [if_pos h1] at ht
      exact ih r t hr hd ht
    · rw [if_neg h1] at ht
      by_cases h2 : c = ['.', '.']
      · rw [if_pos h2] at ht
        rcases hp : (getNode fs r).parent with _ | p
        · rw [hp] at ht
          exact ih r t hr hd ht
        · rw [hp] at ht
          have hrp := reach_parent hwf hr p hp
          have hpd := hwf.parentDir r p hp
          exact ih p t hrp hpd ht
      · rw [if_neg h2] at ht
        rcases hfind : fs_find fs r c with _ | child
        · simp only [hfind] at ht
          simp at ht
        · simp only [hfind] at ht
          by_cases hty : (getNode fs child).type ≠ NodeType.DIR_NODE
          · rw [if_pos hty] at ht
            simp at ht
          · rw [if_neg hty] at ht
            push_neg at hty
            exact ih child t (Reach.child hr (fs_find_mem hfind)) hty ht

theorem resolveParent_sound {fs : FS} (hwf : WF fs) {pp : List Char} {parent : Ref}
    (h : (resolveParent fs pp).2 = some parent) :
    Reach fs parent ∧ (getNode fs parent).type = NodeType.DIR_NODE := by
  simp only [resolveParent] at h
  by_cases hpp : pp ≠ []
  · rw [if_pos hpp] at h
    simp only [fs_traverse_path] at h
    by_cases habs : pp.head? = some '/'
    · rw [if_pos habs] at h
      exact traverseComps_sound hwf _ _ _ Reach.root hwf.rootDir h
    · rw [if_neg habs] at h
      exact traverseComps_sound hwf _ _ _ hwf.cwdReach hwf.cwdDir h
  · rw [if_neg hpp] at h
    simp at h
    cases h
    exact ⟨hwf.cwdReach, hwf.cwdDir⟩

theorem fs_traverse_path_sound {fs : FS} (hwf : WF fs) {p : List Char} {t : Ref}
    (h : (fs_traverse_path fs p false).2 = some t) :
    Reach fs t ∧ (getNode fs t).type = NodeType.DIR_NODE := by
  simp only [fs_traverse_path] at h
  by_cases habs : p.head? = some '/'
  · rw [if_pos habs] at h
    exact traverseComps_sound hwf _ _ _ Reach.root hwf.rootDir h
  · rw [if_neg habs] at h
    exact traverseComps_sound hwf _ _ _ hwf.cwdReach hwf.cwdDir h

/-! Section: The effect of attaching a fresh node -/

theorem attach_pool_length (fs : FS) (parent : Ref) (nm : List Char)
    (ty : NodeType) (perms : Nat) :
    (attachNew fs parent nm ty perms).pool.length = fs.pool.length + 1 := by
  simp only [attachNew]
  rw [setNode_pool_length, setNode_pool_length]
  simp

theorem attach_cwd (fs : FS) (parent : Ref) (nm : List Char)
    (ty : NodeType) (perms : Nat) :
    (attachNew fs parent nm ty perms).cwd = fs.cwd := by
  simp only [attachNew]
  rw [setNode_cwd, setNode_cwd]

theorem valid_ne_fresh {fs : FS} {parent : Ref} (hv : validRef fs parent) :
    parent ≠ Ref.pool fs.pool.length := by
  cases parent with
  | root => simp
  | pool i =>
    intro h
    cases h
    exact absurd hv (by simp [validRef])

theorem getNode_poolAppend (fs : FS) (e : Node) (x : Ref)
    (hx : x ≠ Ref.pool fs.pool.length) :
    getNode { fs with pool := fs.pool ++ [e] } x = getNode fs x := by
  cases x with
  | root => rfl
  | pool j =>
    show getIdx (fs.pool ++ [e]) j emptyNode = getIdx fs.pool j emptyNode
    rcases Nat.lt_trichotomy j fs.pool.length with h | h | h
    · exact getIdx_append_lt _ _ _ _ h
    · exact absurd (by rw [h]) hx
    · rw [getIdx_of_length_le _ _ _ (by simp; omega),
        getIdx_of_length_le _ _ _ (by omega)]

theorem getNode_attach_new (fs : FS) {parent : Ref} (nm : List Char)
    (ty : NodeType) (perms : Nat) (hv : validRef fs parent) :
    getNode (attachNew fs parent nm ty perms) (Ref.pool fs.pool.length) =
      { emptyNode with
        type := ty, parent := some parent, permissions := perms, flags := 0, name := nm } := by
  have hne := valid_ne_fresh hv
  simp only [attachNew]
  rw [getNode_setNode_ne _ _ (Ne.symm hne)]
  rw [getNode_setNode_self _ _ (by simp [validRef])]
  rw [show getNode { fs with pool := fs.pool ++ [emptyNode] } (Ref.pool fs.pool.length)
      = emptyNode from getIdx_append_length _ _ _]

theorem getNode_attach_parent (fs : FS) {parent : Ref} (nm : List Char)
    (ty : NodeType) (perms : Nat) (hv : validRef fs parent) :
    getNode (attachNew fs parent nm ty perms) parent =
      { getNode fs parent with
        children := (getNode fs parent).children ++ [Ref.pool fs.pool.length] } := by
  have hne := valid_ne_fresh hv
  have hv2 : validRef (setNode { fs with pool := fs.pool ++ [emptyNode] }
      (Ref.pool fs.pool.length)
      { getNode { fs with pool := fs.pool ++ [emptyNode] } (Ref.pool fs.pool.length) with
        type := ty, parent := some parent, permissions := perms, flags := 0, name := nm })
      parent := by
    cases parent with
    | root => trivial
    | pool i =>
      show i < _
      rw [setNode_pool_length]
      simp only [List.length_append, List.length_cons, List.length_nil]
      exact Nat.lt_succ_of_lt hv
  simp only [attachNew]
  rw [getNode_setNode_self _ _ hv2]
  rw [getNode_setNode_ne _ _ hne]
  rw [getNode_poolAppend _ _ _ hne]

theorem getNode_attach_other (fs : FS) {parent : Ref} (nm : List Char)
    (ty : NodeType) (perms : Nat) (x : Ref) (hx1 : x ≠ parent)
    (hx2 : x ≠ Ref.pool fs.pool.length) :
    getNode (attachNew fs parent nm ty perms) x = getNode fs x := by
  simp only [attachNew]
  rw [getNode_setNode_ne _ _ hx1]
  rw [getNode_setNode_ne _ _ hx2]
  rw [getNode_poolAppend _ _ _ hx2]

theorem reach_attach {fs : FS} {parent : Ref} (hv : validRef fs parent)
    (nm : List Char) (ty : NodeType) (perms : Nat) {x : Ref} (hx : Reach fs x) :
    Reach (attachNew fs parent nm ty perms) x := by
  induction hx with
  | root => exact Reach.root
  | child hq hc ih =>
    rename_i q c
    refine Reach.child ih ?_
    by_cases hqf : q = Ref.pool fs.pool.length
    · subst hqf
      rw [show getNode fs (Ref.pool fs.pool.length) = emptyNode from
        getIdx_of_length_le _ _ _ (Nat.le_refl _)] at hc
      simp [emptyNode] at hc
    · by_cases hqp : q = parent
      · subst hqp
        rw [getNode_attach_parent fs nm ty perms hv]
        simp only [List.mem_append]
        exact Or.inl hc
      · rw [getNode_attach_other fs nm ty perms q hqp hqf]
        exact hc

theorem wf_attach {fs : FS} (hwf : WF fs) {parent : Ref} (hr : Reach fs parent)
    (hdir : (getNode fs parent).type = NodeType.DIR_NODE)
    (nm : List Char) (ty : NodeType) (perms : Nat) :
    WF (attachNew fs parent nm ty perms) := by
  have hv : validRef fs parent := reach_valid hwf hr
  have hne := valid_ne_fresh hv
  set A := attachNew fs parent nm ty perms with hA
  have hlen : A.pool.length = fs.pool.length + 1 := attach_pool_length fs parent nm ty perms
  have hcwd : A.cwd = fs.cwd := attach_cwd fs parent nm ty perms
  -- field-level transfer facts
  have hparentField : ∀ x : Ref, x ≠ Ref.pool fs.pool.length →
      (getNode A x).parent = (getNode fs x).parent := by
    intro x hx
    by_cases hxp : x = parent
    · subst hxp
      rw [hA, getNode_attach_parent fs nm ty perms hv]
    · rw [hA, getNode_attach_other fs nm ty perms x hxp hx]
  have htypeField : ∀ x : Ref, x ≠ Ref.pool fs.pool.length →
      (getNode A x).type = (getNode fs x).type := by
    intro x hx
    by_cases hxp : x = parent
    · subst hxp
      rw [hA, getNode_attach_parent fs nm ty perms hv]
    · rw [hA, getNode_attach_other fs nm ty perms x hxp hx]
  have hchildField : ∀ x : Ref, x ≠ Ref.pool fs.pool.length → x ≠ parent →
      (getNode A x).children = (getNode fs x).children := by
    intro x hx hxp
    rw [hA, getNode_attach_other fs nm ty perms x hxp hx]
  have hnew : getNode A (Ref.pool fs.pool.length) =
      { emptyNode with
        type := ty, parent := some parent, permissions := perms, flags := 0, name := nm } :=
    getNode_attach_new fs nm ty perms hv
  have hpar : getNode A parent =
      { getNode fs parent with
        children := (getNode fs parent).children ++ [Ref.pool fs.pool.length] } :=
    getNode_attach_parent fs nm ty perms hv
  -- pointers recorded in fs never reference the fresh slot
  have hOldChild : ∀ r : Ref, ∀ c ∈ (getNode fs r).children,
      c ≠ Ref.pool fs.pool.length := by
    intro r c hc hcf
    rcases hwf.childPool r c hc with ⟨-, hb⟩
    rw [hcf] at hb
    simp [refBound] at hb
  constructor
  · -- rootParent
    have h := hparentField Ref.root (by simp)
    rw [show A.rootNode = getNode A Ref.root from rfl, h]
    exact hwf.rootParent
  · -- rootDir
    have h := htypeField Ref.root (by simp)
    rw [show A.rootNode = getNode A Ref.root from rfl, h]
    exact hwf.rootDir
  · -- childPool
    intro r c hc
    rw [hlen]
    by_cases hrf : r = Ref.pool fs.pool.length
    · subst hrf
      rw [hnew] at hc
      simp [emptyNode] at hc
    · by_cases hrp : r = parent
      · rw [hrp, hpar] at hc
        simp only [List.mem_append, List.mem_singleton] at hc
        rcases hc with hc | hc
        · rcases hwf.childPool parent c hc with ⟨h1, h2⟩
          exact ⟨h1, Nat.le_succ_of_le h2⟩
        · subst hc
          exact ⟨by simp, by simp [refBound]⟩
      · rw [hchildField r hrf hrp] at hc
        rcases hwf.childPool r c hc with ⟨h1, h2⟩
        exact ⟨h1, Nat.le_succ_of_le h2⟩
  · -- parentConsistent
    intro r c hc
    by_cases hrf : r = Ref.pool fs.pool.length
    · subst hrf
      rw [hnew] at hc
      simp [emptyNode] at hc
    · by_cases hrp : r = parent
      · rw [hrp, hpar] at hc
        rw [hrp]
        simp only [List.mem_append, List.mem_singleton] at hc
        rcases hc with hc | hc
        · have hcf := hOldChild parent c hc
          rw [hparentField c hcf]
          exact hwf.parentConsistent parent c hc
        · subst hc
          rw [hnew]
      · rw [hchildField r hrf hrp] at hc
        have hcf := hOldChild r c hc
        rw [hparentField c hcf]
        exact hwf.parentConsistent r c hc
  · -- parentMono
    intro i p hp
    by_cases hif : i = fs.pool.length
    · subst hif
      rw [hnew] at hp
      simp at hp
      rw [← hp]
      cases parent with
      | root => simp [refBound]
      | pool j => exact Nat.succ_le_of_lt hv
    · rw [hparentField (Ref.pool i) (by simp [hif])] at hp
      exact hwf.parentMono i p hp
  · -- parentDir
    intro r p hp
    by_cases hrf : r = Ref.pool fs.pool.length
    · subst hrf
      rw [hnew] at hp
      simp at hp
      rw [← hp]
      rw [htypeField parent hne]
      exact hdir
    · rw [hparentField r hrf] at hp
      have hpd := hwf.parentDir r p hp
      -- p is not the fresh slot: either the root, or an old pool slot
      have hpf : p ≠ Ref.pool fs.pool.length := by
        cases r with
        | root =>
          rw [show getNode fs Ref.root = fs.rootNode from rfl, hwf.rootParent] at hp
          cases hp
        | pool i =>
          have hb := hwf.parentMono i p hp
          intro hpe
          subst hpe
          simp [refBound] at hb
          -- i < fs.pool.length would be needed; derive from getNode being emptyNode otherwise
          rcases Nat.lt_or_ge i fs.pool.length with hi | hi
          · omega
          · rw [show getNode fs (Ref.pool i) = emptyNode from
              getIdx_of_length_le _ _ _ hi] at hp
            simp [emptyNode] at hp
      rw [htypeField p hpf]
      exact hpd
  · -- fileNoChildren
    intro r hty
    by_cases hrf : r = Ref.pool fs.pool.length
    · subst hrf
      rw [hnew]
      rfl
    · by_cases hrp : r = parent
      · rw [hrp, htypeField parent hne] at hty
        rw [hdir] at hty
        cases hty
      · rw [htypeField r hrf] at hty
        rw [hchildField r hrf hrp]
        exact hwf.fileNoChildren r hty
  · -- cwdReach
    rw [hcwd]
    exact reach_attach hv nm ty perms hwf.cwdReach
  · -- cwdDir
    rw [hcwd]
    have hcv : validRef fs fs.cwd := reach_valid hwf hwf.cwdReach
    rw [htypeField fs.cwd (valid_ne_fresh hcv)]
    exact hwf.cwdDir

/-! Section: The effect of detaching a child and of non-structural updates -/

theorem getNode_detach_parent (fs : FS) {parent : Ref} (child : Ref)
    (hv : validRef fs parent) :
    getNode (detachChild fs parent child) parent =
      { getNode fs parent with
        children := removeFirst (getNode fs parent).children child } := by
  simp only [detachChild]
  rw [getNode_setNode_self _ _ hv]

theorem getNode_detach_other (fs : FS) {parent : Ref} (child : Ref) (x : Ref)
    (hx : x ≠ parent) :
    getNode (detachChild fs parent child) x = getNode fs x := by
  simp only [detachChild]
  rw [getNode_setNode_ne _ _ hx]

theorem detach_cwd (fs : FS) (parent child : Ref) :
    (detachChild fs parent child).cwd = fs.cwd := by
  simp only [detachChild]
  rw [setNode_cwd]

theorem detach_pool_length (fs : FS) (parent child : Ref) :
    (detachChild fs parent child).pool.length = fs.pool.length := by
  simp only [detachChild]
  rw [setNode_pool_length]

theorem reach_detach {fs : FS} {parent child : Ref}
    (hnc : (getNode fs child).children = []) {x : Ref} (hx : Reach fs x)
    (hxc : x ≠ child) : Reach (detachChild fs parent child) x := by
  by_cases hv : validRef fs parent
  case neg =>
    have : detachChild fs parent child = fs := by
      simp only [detachChild]
      exact setNode_of_not_valid fs _ hv
    rw [this]
    exact hx
  case pos =>
    induction hx with
    | root => exact Reach.root
    | child hq hc ih =>
      rename_i q c
      have hqc : q ≠ child := by
        intro h
        rw [h, hnc] at hc
        simp at hc
      have hq2 := ih hqc
      refine Reach.child hq2 ?_
      by_cases hqp : q = parent
      · subst hqp
        rw [getNode_detach_parent fs child hv]
        exact mem_removeFirst_of_mem hc hxc
      · rw [getNode_detach_other fs child q hqp]
        exact hc

theorem wf_detach {fs : FS} (hwf : WF fs) {parent child : Ref}
    (hnc : (getNode fs child).children = [])
    (hcwd : fs.cwd ≠ child) : WF (detachChild fs parent child) := by
  by_cases hv : validRef fs parent
  case neg =>
    have : detachChild fs parent child = fs := by
      simp only [detachChild]
      exact setNode_of_not_valid fs _ hv
    rw [this]
    exact hwf
  case pos =>
    set D := detachChild fs parent child with hD
    have hlen : D.pool.length = fs.pool.length := detach_pool_length fs parent child
    have hdcwd : D.cwd = fs.cwd := detach_cwd fs parent child
    have hparentField : ∀ x : Ref, (getNode D x).parent = (getNode fs x).parent := by
      intro x
      by_cases hxp : x = parent
      · rw [hxp, hD, getNode_detach_parent fs child hv]
      · rw [hD, getNode_detach_other fs child x hxp]
    have htypeField : ∀ x : Ref, (getNode D x).type = (getNode fs x).type := by
      intro x
      by_cases hxp : x = parent
      · rw [hxp, hD, getNode_detach_parent fs child hv]
      · rw [hD, getNode_detach_other fs child x hxp]
    have hchildSub : ∀ x : Ref, ∀ c ∈ (getNode D x).children,
        c ∈ (getNode fs x).children := by
      intro x c hc
      by_cases hxp : x = parent
      · rw [hxp, hD, getNode_detach_parent fs child hv] at hc
        rw [hxp]
        exact mem_of_mem_removeFirst hc
      · rw [hD, getNode_detach_other fs child x hxp] at hc
        exact hc
    constructor
    · have h := hparentField Ref.root
      rw [show D.rootNode = getNode D Ref.root from rfl, h]
      exact hwf.rootParent
    · have h := htypeField Ref.root
      rw [show D.rootNode = getNode D Ref.root from rfl, h]
      exact hwf.rootDir
    · intro r c hc
      rw [hlen]
      exact hwf.childPool r c (hchildSub r c hc)
    · intro r c hc
      rw [hparentField c]
      exact hwf.parentConsistent r c (hchildSub r c hc)
    · intro i p hp
      rw [hparentField (Ref.pool i)] at hp
      exact hwf.parentMono i p hp
    · intro r p hp
      rw [hparentField r] at hp
      rw [htypeField p]
      exact hwf.parentDir r p hp
    · intro r hty
      rw [htypeField r] at hty
      have h0 := hwf.fileNoChildren r hty
      by_cases hxp : r = parent
      · rw [hxp, hD, getNode_detach_parent fs child hv]
        rw [hxp] at h0
        simp only [h0]
        rfl
      · rw [hD, getNode_detach_other fs child r hxp]
        exact h0
    · rw [hdcwd]
      exact reach_detach hnc hwf.cwdReach hcwd
    · rw [hdcwd, htypeField fs.cwd]
      exact hwf.cwdDir

/-- A node update that changes neither the tree structure nor the node
type (chmod changes permissions, write changes content) preserves
well-formedness. -/
theorem wf_setNode_nonstructural {fs : FS} (hwf : WF fs) (r : Ref) (n : Node)
    (hch : n.children = (getNode fs r).children)
    (hpar : n.parent = (getNode fs r).parent)
    (hty : n.type = (getNode fs r).type) : WF (setNode fs r n) := by
  by_cases hv : validRef fs r
  case neg =>
    rw [setNode_of_not_valid fs n hv]
    exact hwf
  case pos =>
    set D := setNode fs r n with hD
    have hlen : D.pool.length = fs.pool.length := setNode_pool_length fs r n
    have hdcwd : D.cwd = fs.cwd := setNode_cwd fs r n
    have hget : ∀ x : Ref, (getNode D x).children = (getNode fs x).children ∧
        (getNode D x).parent = (getNode fs x).parent ∧
        (getNode D x).type = (getNode fs x).type := by
      intro x
      by_cases hxr : x = r
      · rw [hxr, hD, getNode_setNode_self fs n hv]
        exact ⟨hch, hpar, hty⟩
      · rw [hD, getNode_setNode_ne fs n hxr]
        exact ⟨rfl, rfl, rfl⟩
    have hreach : ∀ x : Ref, Reach fs x → Reach D x := by
      intro x hx
      induction hx with
      | root => exact Reach.root
      | child hq hc ih =>
        rename_i q c
        refine Reach.child ih ?_
        rw [(hget q).1]
        exact hc
    constructor
    · have h := (hget Ref.root).2.1
      rw [show D.rootNode = getNode D Ref.root from rfl, h]
      exact hwf.rootParent
    · have h := (hget Ref.root).2.2
      rw [show D.rootNode = getNode D Ref.root from rfl, h]
      exact hwf.rootDir
    · intro x c hc
      rw [hlen]
      rw [(hget x).1] at hc
      exact hwf.childPool x c hc
    · intro x c hc
      rw [(hget x).1] at hc
      rw [(hget c).2.1]
      exact hwf.parentConsistent x c hc
    · intro i p hp
      rw [(hget (Ref.pool i)).2.1] at hp
      exact hwf.parentMono i p hp
    · intro x p hp
      rw [(hget x).2.1] at hp
      rw [(hget p).2.2]
      exact hwf.parentDir x p hp
    · intro x hty2
      rw [(hget x).2.2] at hty2
      rw [(hget x).1]
      exact hwf.fileNoChildren x hty2
    · rw [hdcwd]
      exact hreach fs.cwd hwf.cwdReach
    · rw [hdcwd, (hget fs.cwd).2.2]
      exact hwf.cwdDir

/-! Section: Preservation of well-formedness by each operation -/

theorem wf_mkdir {fs : FS} (hwf : WF fs) (p : List Char) : WF (fs_mkdir fs p).1 := by
  simp only [fs_mkdir]
  rcases hrp : resolveParent fs (splitParentName p).1 with ⟨fs1, po⟩
  have hfs1 : fs1 = fs := by
    have h := resolveParent_fst fs (splitParentName p).1
    rw [hrp] at h
    exact h
  subst hfs1
  cases po with
  | none => exact hwf
  | some parent =>
    rcases resolveParent_sound hwf (show (resolveParent fs1 (splitParentName p).1).2 = some parent by rw [hrp]) with ⟨hreach, hdir⟩
    simp only
    split
    · exact hwf
    · split
      · exact hwf
      · split
        · exact hwf
        · split
          · exact hwf
          · exact wf_attach hwf hreach hdir _ _ _

theorem wf_touch_internal {fs : FS} (hwf : WF fs) (p : List Char) (perms : Nat) :
    WF (fs_touch_internal fs p perms).1 := by
  simp only [fs_touch_internal]
  split
  · exact hwf
  · rcases hrp : resolveParent fs (splitParentName (p.dropWhile (· = ' '))).1 with ⟨fs1, po⟩
    have hfs1 : fs1 = fs := by
      have h := resolveParent_fst fs (splitParentName (p.dropWhile (· = ' '))).1
      rw [hrp] at h
      exact h
    subst hfs1
    cases po with
    | none => exact hwf
    | some parent =>
      rcases resolveParent_sound hwf (show (resolveParent fs1 (splitParentName (p.dropWhile (· = ' '))).1).2 = some parent by rw [hrp]) with ⟨hreach, hdir⟩
      simp only
      split
      · exact hwf
      · split
        · exact hwf
        · split
          · exact hwf
          · split
            · exact hwf
            · exact wf_attach hwf hreach hdir _ _ _

theorem wf_cd {fs : FS} (hwf : WF fs) (p : List Char) : WF (fs_cd fs p).1 := by
  simp only [fs_cd]
  rcases htp : fs_traverse_path fs p false with ⟨fs1, tgt⟩
  have hfs1 : fs1 = fs := by
    have h := fs_traverse_path_fst fs p
    rw [htp] at h
    exact h
  subst hfs1
  cases tgt with
  | none => exact hwf
  | some target =>
    rcases fs_traverse_path_sound hwf (show (fs_traverse_path fs1 p false).2 = some target by rw [htp]) with ⟨hreach, hdir⟩
    simp only
    split
    · exact hwf
    · constructor
      · exact hwf.rootParent
      · exact hwf.rootDir
      · intro r c hc
        exact hwf.childPool r c hc
      · intro r c hc
        exact hwf.parentConsistent r c hc
      · intro i q hq
        exact hwf.parentMono i q hq
      · intro r q hq
        exact hwf.parentDir r q hq
      · intro r hty
        exact hwf.fileNoChildren r hty
      · show Reach { fs1 with cwd := target } target
        have : ∀ x : Ref, Reach fs1 x → Reach { fs1 with cwd := target } x := by
          intro x hx
          induction hx with
          | root => exact Reach.root
          | child hq hc ih =>
            refine Reach.child ih ?_
            rw [getNode_cwd_update]
            exact hc
        exact this target hreach
      · show (getNode { fs1 with cwd := target } target).type = NodeType.DIR_NODE
        rw [getNode_cwd_update]
        exact hdir

theorem wf_write {fs : FS} (hwf : WF fs) (p t : List Char) : WF (fs_write fs p t).1 := by
  simp only [fs_write]
  rcases hrp : resolveParent fs (splitParentName p).1 with ⟨fs1, po⟩
  have hfs1 : fs1 = fs := by
    have h := resolveParent_fst fs (splitParentName p).1
    rw [hrp] at h
    exact h
  subst hfs1
  cases po with
  | none => exact hwf
  | some parent =>
    simp only
    cases hfind : fs_find fs1 parent (splitParentName p).2 with
    | none => exact hwf
    | some file =>
      simp only
      split
      · exact hwf
      · split
        · exact hwf
        · exact wf_setNode_nonstructural hwf file _ rfl rfl rfl

theorem wf_chmod {fs : FS} (hwf : WF fs) (p : List Char) (perms : Nat) :
    WF (fs_chmod fs p perms).1 := by
  simp only [fs_chmod]
  split
  · exact hwf
  · split
    · exact hwf
    · rcases hfw : fs_find_with_parent fs p with ⟨fs1, po⟩
      have hfs1 : fs1 = fs := by
        have h := fs_find_with_parent_fst fs p
        rw [hfw] at h
        exact h
      subst hfs1
      cases po with
      | none => exact hwf
      | some pr =>
        rcases pr with ⟨parent, node⟩
        simp only
        split
        · exact hwf
        · exact wf_setNode_nonstructural hwf node _ rfl rfl rfl

theorem wf_rm {fs : FS} (hwf : WF fs) (p : List Char) : WF (fs_rm fs p).1 := by
  simp only [fs_rm]
  split
  · exact hwf
  · rcases hfw : fs_find_with_parent fs p with ⟨fs1, po⟩
    have hfs1 : fs1 = fs := by
      have h := fs_find_with_parent_fst fs p
      rw [hfw] at h
      exact h
    subst hfs1
    cases po with
    | none => exact hwf
    | some pr =>
      rcases pr with ⟨parent, file⟩
      simp only
      split
      · exact hwf
      · split
        · exact hwf
        · split
          · exact hwf
          · rename_i hty hsys hcw
            push_neg at hty
            have hnc : (getNode fs1 file).children = [] := hwf.fileNoChildren file hty
            have hcwd : fs1.cwd ≠ file := by
              intro h
              have := hwf.cwdDir
              rw [h, hty] at this
              cases this
            exact wf_detach hwf hnc hcwd

theorem wf_rmdir {fs : FS} (hwf : WF fs) (p : List Char)
    (hsafe : removesCwd fs p = false) : WF (fs_rmdir fs p).1 := by
  simp only [fs_rmdir]
  split
  · exact hwf
  · rename_i hp0
    rcases hfw : fs_find_with_parent fs p with ⟨fs1, po⟩
    have hfs1 : fs1 = fs := by
      have h := fs_find_with_parent_fst fs p
      rw [hfw] at h
      exact h
    subst hfs1
    cases po with
    | none => exact hwf
    | some pr =>
      rcases pr with ⟨parent, dir⟩
      simp only
      split
      · exact hwf
      · split
        · exact hwf
        · split
          · exact hwf
          · split
            · exact hwf
            · rename_i hty hsys hcw hne
              push_neg at hty
              have hnc : (getNode fs1 dir).children = [] := by
                simp at hne
                exact hne
              have hcwd : fs1.cwd ≠ dir := by
                intro h
                rw [removesCwd] at hsafe
                have h2 : (fs_find_with_parent fs1 p).2 = some (parent, dir) := by
                  rw [hfw]
                rw [h2] at hsafe
                simp only [decide_eq_false_iff_not] at hsafe
                apply hsafe
                refine ⟨hp0, h.symm, hty, ?_, ?_, by simp [hnc]⟩
                · simpa using hsys
                · simpa using hcw
              exact wf_detach hwf hnc hcwd

theorem wf_applyOp {fs : FS} (hwf : WF fs) (op : Op)
    (hsafe : opSafeB fs op = true) : WF (applyOp fs op) := by
  cases op with
  | mkdir p => exact wf_mkdir hwf p
  | touch p => exact wf_touch_internal hwf p PERM_RW
  | touchPerms p perms => exact wf_touch_internal hwf p perms
  | ls p => exact hwf
  | lsAll p => exact hwf
  | cd p => exact wf_cd hwf p
  | pwd => exact hwf
  | write p t => exact wf_write hwf p t
  | cat p => exact hwf
  | rm p => exact wf_rm hwf p
  | rmdir p =>
    apply wf_rmdir hwf p
    simp only [opSafeB, Bool.not_eq_true'] at hsafe
    exact hsafe
  | chmod p perms => exact wf_chmod hwf p perms
  | stat p => exact hwf

theorem wf_foldl : ∀ (ops : List Op) (fs : FS), WF fs →
    safeSeq fs ops = true → WF (ops.foldl applyOp fs) := by
  intro ops
  induction ops with
  | nil =>
    intro fs hwf _
    exact hwf
  | cons op rest ih =>
    intro fs hwf hsafe
    simp only [safeSeq, Bool.and_eq_true] at hsafe
    exact ih (applyOp fs op) (wf_applyOp hwf op hsafe.1) hsafe.2

/-! Section: The bootstrap state is well-formed -/

theorem fs_init_pool_length : fs_init.pool.length = 6 := rfl

theorem getNode_fs_init_oob (i : Nat) (h : 6 ≤ i) :
    getNode fs_init (Ref.pool i) = emptyNode := by
  apply getIdx_of_length_le
  rw [fs_init_pool_length]
  exact h

theorem wf_fs_init : WF fs_init := by
  constructor
  · rfl
  · rfl
  · -- childPool
    intro r c hc
    cases r with
    | root =>
      revert c
      decide
    | pool i =>
      rcases Nat.lt_or_ge i 6 with h6 | h6
      · interval_cases i <;> (revert c; decide)
      · rw [getNode_fs_init_oob i h6] at hc
        simp [emptyNode] at hc
  · -- parentConsistent
    intro r c hc
    cases r with
    | root =>
      revert c
      decide
    | pool i =>
      rcases Nat.lt_or_ge i 6 with h6 | h6
      · interval_cases i <;> (revert c; decide)
      · rw [getNode_fs_init_oob i h6] at hc
        simp [emptyNode] at hc
  · -- parentMono
    intro i p hp
    rcases Nat.lt_or_ge i 6 with h6 | h6
    · interval_cases i <;> simp [fs_init, getNode, getIdx, emptyNode] at hp <;>
        (subst hp; decide)
    · rw [getNode_fs_init_oob i h6] at hp
      simp [emptyNode] at hp
  · -- parentDir
    intro r p hp
    cases r with
    | root =>
      have : fs_init.rootNode.parent = none := rfl
      rw [show getNode fs_init Ref.root = fs_init.rootNode from rfl, this] at hp
      cases hp
    | pool i =>
      rcases Nat.lt_or_ge i 6 with h6 | h6
      · interval_cases i <;> simp [fs_init, getNode, getIdx, emptyNode] at hp <;>
          (subst hp; decide)
      · rw [getNode_fs_init_oob i h6] at hp
        simp [emptyNode] at hp
  · -- fileNoChildren
    intro r hty
    cases r with
    | root => exact absurd hty (by decide)
    | pool i =>
      rcases Nat.lt_or_ge i 6 with h6 | h6
      · interval_cases i <;> first
          | exact absurd hty (by decide)
          | decide
      · rw [getNode_fs_init_oob i h6]
        rfl
  · -- cwdReach
    exact Reach.root
  · -- cwdDir
    decide

/-! Section: Claim C1: the current-directory invariant -/

theorem reach_C1_bad_mem : ∀ r : Ref, Reach C1_bad r → r ∈ C1_live := by
  intro r hr
  induction hr with
  | root => decide
  | child hq hc ih =>
    rename_i q c
    fin_cases ih <;> (revert c; decide)

/-- Claim C1, counterexample: after `fs_init`, `cd home` succeeds and
`rmdir ../home` succeeds while the current directory is /home itself;
afterwards the cursor points at the detached directory node, which is no
longer reachable from the root — so it is not the case that every
operation sequence (including an rmdir whose path resolves to the cwd)
keeps the cursor on a Directory node reachable from the root. -/
theorem C1_counterexample :
    (fs_cd fs_init "home".toList).2 = none ∧
    (fs_rmdir (fs_cd fs_init "home".toList).1 "../home".toList).2 = none ∧
    ¬ (Reach C1_bad C1_bad.cwd ∧
       (getNode C1_bad C1_bad.cwd).type = NodeType.DIR_NODE) := by
  refine ⟨by decide, by decide, ?_⟩
  intro h
  have hmem := reach_C1_bad_mem C1_bad.cwd h.1
  revert hmem
  decide

/-- Claim C1, amended: starting from `fs_init`, every sequence of
filesystem operations in which no step is an `rmdir` whose path resolves
to the current directory with all of rmdir's guards passing (the only
way the C code can detach the cwd) leaves the current-directory cursor
on a Directory node reachable from the root via child links. -/
theorem C1_amended (ops : List Op) (hsafe : safeSeq fs_init ops = true) :
    Reach (ops.foldl applyOp fs_init) (ops.foldl applyOp fs_init).cwd ∧
    (getNode (ops.foldl applyOp fs_init)
      (ops.foldl applyOp fs_init).cwd).type = NodeType.DIR_NODE := by
  have h := wf_foldl ops fs_init wf_fs_init hsafe
  exact ⟨h.cwdReach, h.cwdDir⟩

/-- Claim C1, witness: a concrete safe sequence exercising cd, mkdir,
touch, write, chmod, rm and rmdir keeps the cursor reachable. -/
theorem C1_amended_witness :
    safeSeq fs_init C1_ops = true ∧
    (Reach (C1_ops.foldl applyOp fs_init) (C1_ops.foldl applyOp fs_init).cwd ∧
     (getNode (C1_ops.foldl applyOp fs_init)
       (C1_ops.foldl applyOp fs_init).cwd).type = NodeType.DIR_NODE) :=
  ⟨by decide, C1_amended C1_ops (by decide)⟩

/-! Section: Claim C2: pwd rendering after path resolution -/

theorem pwdRec_parent_none (fs : FS) (fuel : Nat) (r : Ref)
    (hp : (getNode fs r).parent = none) :
    fs_pwd_recursive fs (fuel + 1) r = ['/'] := by
  simp only [fs_pwd_recursive, hp]

theorem pwdRec_parent_some (fs : FS) (fuel : Nat) (r p : Ref)
    (hp : (getNode fs r).parent = some p) :
    fs_pwd_recursive fs (fuel + 1) r =
      fs_pwd_recursive fs fuel p ++
        (if r ≠ Ref.root then '/' :: (getNode fs r).name else []) := by
  simp only [fs_pwd_recursive, hp]

theorem pwdRec_cwd_update (fs : FS) (t : Ref) : ∀ (fuel : Nat) (r : Ref),
    fs_pwd_recursive { fs with cwd := t } fuel r = fs_pwd_recursive fs fuel r := by
  intro fuel
  induction fuel with
  | zero => intro r; rfl
  | succ f ih =>
    intro r
    simp only [fs_pwd_recursive, getNode_cwd_update]
    cases hp : (getNode fs r).parent with
    | none => rfl
    | some p => simp [hp, ih]

theorem pwdRec_fuel {fs : FS} (hwf : WF fs) :
    ∀ (fuel : Nat) (r : Ref), refBound r < fuel →
      fs_pwd_recursive fs fuel r = fs_pwd_recursive fs (refBound r + 1) r := by
  intro fuel
  induction fuel using Nat.strong_induction_on with
  | _ fuel ih =>
    intro r hr
    cases fuel with
    | zero => omega
    | succ f =>
      cases hp : (getNode fs r).parent with
      | none => rw [pwdRec_parent_none fs f r hp, pwdRec_parent_none fs (refBound r) r hp]
      | some p =>
        cases r with
        | root =>
          rw [show getNode fs Ref.root = fs.rootNode from rfl, hwf.rootParent] at hp
          cases hp
        | pool i =>
          have hb : refBound p ≤ i := hwf.parentMono i p hp
          have hif : i < f := by
            have : refBound (Ref.pool i) < f + 1 := hr
            simp [refBound] at this
            omega
          have h1 : fs_pwd_recursive fs f p = fs_pwd_recursive fs (refBound p + 1) p :=
            ih f (by omega) p (by omega)
          have h2 : fs_pwd_recursive fs (i + 1) p = fs_pwd_recursive fs (refBound p + 1) p :=
            ih (i + 1) (by omega) p (by omega)
          show fs_pwd_recursive fs (f + 1) (Ref.pool i) =
            fs_pwd_recursive fs ((i + 1) + 1) (Ref.pool i)
          rw [pwdRec_parent_some fs f (Ref.pool i) p hp,
            pwdRec_parent_some fs (i + 1) (Ref.pool i) p hp, h1, h2]

theorem pwdRec_child {fs : FS} (hwf : WF fs) {r ch : Ref} {j : Nat}
    (hch : ch = Ref.pool j) (hj : j < fs.pool.length)
    (hp : (getNode fs ch).parent = some r) :
    fs_pwd_recursive fs (fs.pool.length + 1) ch =
      fs_pwd_recursive fs (fs.pool.length + 1) r ++ '/' :: (getNode fs ch).name := by
  subst hch
  have hb : refBound r ≤ j := hwf.parentMono j r hp
  have e1 : fs_pwd_recursive fs fs.pool.length r =
      fs_pwd_recursive fs (refBound r + 1) r :=
    pwdRec_fuel hwf fs.pool.length r (by omega)
  have e2 : fs_pwd_recursive fs (fs.pool.length + 1) r =
      fs_pwd_recursive fs (refBound r + 1) r :=
    pwdRec_fuel hwf (fs.pool.length + 1) r (by omega)
  rw [pwdRec_parent_some fs fs.pool.length (Ref.pool j) r hp, e1, ← e2]
  simp

theorem traverse_render {fs : FS} (hwf : WF fs) :
    ∀ (cs : List (List Char)) (r t : Ref), Reach fs r →
      (∀ c ∈ cs, c ≠ ['.', '.']) →
      (traverseComps false fs r cs).2 = some t →
      fs_pwd_recursive fs (fs.pool.length + 1) t =
        fs_pwd_recursive fs (fs.pool.length + 1) r ++ renderAbs (normalizeComps cs) := by
  intro cs
  induction cs with
  | nil =>
    intro r t hr _ ht
    simp only [traverseComps] at ht
    cases ht
    simp [normalizeComps, renderAbs]
  | cons c rest ih =>
    intro r t hr hcs ht
    simp only [traverseComps] at ht
    by_cases h1 : c = ['.']
    · rw [if_pos h1] at ht
      have hrec := ih r t hr (fun d hd => hcs d (by simp [hd])) ht
      rw [hrec]
      simp [normalizeComps, h1]
    · rw [if_neg h1] at ht
      have h2 : c ≠ ['.', '.'] := hcs c (by simp)
      rw [if_neg h2] at ht
      rcases hfind : fs_find fs r c with _ | child
      · simp only [hfind] at ht
        simp at ht
      · simp only [hfind] at ht
        by_cases hty : (getNode fs child).type ≠ NodeType.DIR_NODE
        · rw [if_pos hty] at ht
          simp at ht
        · rw [if_neg hty] at ht
          have hmem := fs_find_mem hfind
          have hname := fs_find_name hfind
          rcases hwf.childPool r child hmem with ⟨hcr, hbnd⟩
          obtain ⟨j, hj, hjlt⟩ : ∃ j, child = Ref.pool j ∧ j < fs.pool.length := by
            cases child with
            | root => exact absurd rfl hcr
            | pool j => exact ⟨j, rfl, by simpa [refBound] using hbnd⟩
          have hpar := hwf.parentConsistent r child hmem
          have hstep := pwdRec_child hwf hj hjlt hpar
          have hrec := ih child t (Reach.child hr hmem)
            (fun d hd => hcs d (by simp [hd])) ht
          rw [hrec, hstep, hname]
          have hnorm : normalizeComps (c :: rest) = c :: normalizeComps rest := by
            simp [normalizeComps, h1]
          rw [hnorm]
          simp [renderAbs]

/-- Claim C2, counterexample: resolving "/home" from the root succeeds
and cd moves there, but fs_pwd then prints "//home" and a newline — the
root frame prints "/" and every frame below the root appends "/name" —
not the normalized absolute path "/home" followed by a newline. -/
theorem C2_counterexample :
    (fs_cd fs_init "/home".toList).2 = none ∧
    fs_pwd (fs_cd fs_init "/home".toList).1 = "//home\n".toList ∧
    "//home\n".toList ≠ "/home\n".toList :=
  ⟨by decide, by decide, by decide⟩

/-- Claim C2, amended: for every path p whose components (as split by
the traversal loop, which collapses repeated slashes and truncates long
components) contain no "..", if resolving p from the root succeeds at a
node t, then pwd rendered from cursor t prints exactly one slash
followed by the slash-prefixed normalized components of p (so "/" at
the root and one extra leading slash — "//c1/.../ck" — anywhere below),
then a newline. -/
theorem C2_amended (fs : FS) (p : List Char) (t : Ref) (hwf : WF fs)
    (hcs : ∀ c ∈ pathComponents p, c ≠ ['.', '.'])
    (ht : (traverseComps false fs Ref.root (pathComponents p)).2 = some t) :
    fs_pwd { fs with cwd := t } =
      ('/' :: renderAbs (normalizeComps (pathComponents p))) ++ ['\n'] := by
  simp only [fs_pwd]
  rw [pwdRec_cwd_update]
  have hmain := traverse_render hwf (pathComponents p) Ref.root t Reach.root hcs ht
  rw [hmain]
  have hroot : fs_pwd_recursive fs (fs.pool.length + 1) Ref.root = ['/'] := by
    simp only [fs_pwd_recursive]
    rw [show (getNode fs Ref.root).parent = none from hwf.rootParent]
  rw [hroot]
  rfl

/-- Claim C2, witness: "//home/." resolves from the root to /home
(repeated slashes collapsed, "." dropped), and pwd from there prints
"//home" with a newline. -/
theorem C2_amended_witness :
    fs_pwd { fs_init with cwd := Ref.pool 3 } = "//home\n".toList := by
  have h := C2_amended fs_init "//home/.".toList (Ref.pool 3) wf_fs_init
    (by decide) (by decide)
  rw [h]
  decide

/-! Section: Pair-equation helpers for stating resolution hypotheses -/

theorem fs_find_with_parent_eq {fs : FS} {p : List Char} {res : Option (Ref × Ref)}
    (h : (fs_find_with_parent fs p).2 = res) :
    fs_find_with_parent fs p = (fs, res) := by
  rcases hfw : fs_find_with_parent fs p with ⟨a, b⟩
  have h1 := fs_find_with_parent_fst fs p
  rw [hfw] at h1 h
  simp only at h1 h
  rw [h1, h]

theorem resolveParent_eq {fs : FS} {pp : List Char} {res : Option Ref}
    (h : (resolveParent fs pp).2 = res) : resolveParent fs pp = (fs, res) := by
  rcases hrp : resolveParent fs pp with ⟨a, b⟩
  have h1 := resolveParent_fst fs pp
  rw [hrp] at h1 h
  simp only at h1 h
  rw [h1, h]

theorem fs_traverse_path_eq {fs : FS} {p : List Char} {res : Option Ref}
    (h : (fs_traverse_path fs p false).2 = res) :
    fs_traverse_path fs p false = (fs, res) := by
  rcases htp : fs_traverse_path fs p false with ⟨a, b⟩
  have h1 := fs_traverse_path_fst fs p
  rw [htp] at h1 h
  simp only at h1 h
  rw [h1, h]

/-! Section: Claim C3: protection of System-flagged nodes -/

/-- Claim C3, counterexample: /bin is a bootstrap System-flagged node
and "/bin" resolves to it, but `rm /bin` fails with WrongType ("Not a
file! Use rmdir for directories.") — the type check runs before the
system check — not with PermissionDenied as the claim states for each
of rm, rmdir and chmod. -/
theorem C3_counterexample :
    (fs_find_with_parent fs_init "/bin".toList).2 = some (Ref.root, Ref.pool 1) ∧
    fs_is_system (getNode fs_init (Ref.pool 1)) = true ∧
    (fs_rm fs_init "/bin".toList).2 = some FsErr.wrongType ∧
    FsErr.wrongType ≠ FsErr.permissionDenied := by
  decide

/-- Claim C3, amended: for every state and every path that resolves (by
the shared parent/leaf split) to a System-flagged node, the
type-matching deletion (rm for a File, rmdir for a Directory) and chmod
with any valid value 0-7 fail with PermissionDenied and leave the state
entirely unchanged, regardless of the permission bits of the node or of
its parent; the type-mismatched deletion fails with WrongType instead. -/
theorem C3_amended (fs : FS) (p : List Char) (parent node : Ref)
    (hp0 : p ≠ [])
    (hres : (fs_find_with_parent fs p).2 = some (parent, node))
    (hsys : fs_is_system (getNode fs node) = true) :
    ((getNode fs node).type = NodeType.FILE_NODE →
      fs_rm fs p = (fs, some FsErr.permissionDenied)) ∧
    ((getNode fs node).type = NodeType.DIR_NODE →
      fs_rmdir fs p = (fs, some FsErr.permissionDenied)) ∧
    (∀ k : Nat, k ≤ 7 → fs_chmod fs p k = (fs, some FsErr.permissionDenied)) := by
  refine ⟨?_, ?_, ?_⟩
  · intro hty
    simp only [fs_rm, fs_find_with_parent_eq hres]
    rw [if_neg hp0]
    rw [if_neg (show ¬ (getNode fs node).type ≠ NodeType.FILE_NODE by simp [hty])]
    rw [if_pos hsys]
  · intro hty
    simp only [fs_rmdir, fs_find_with_parent_eq hres]
    rw [if_neg hp0]
    rw [if_neg (show ¬ (getNode fs node).type ≠ NodeType.DIR_NODE by simp [hty])]
    rw [if_pos hsys]
  · intro k hk
    simp only [fs_chmod, fs_find_with_parent_eq hres]
    rw [if_neg hp0]
    rw [if_neg (show ¬ k > 7 by omega)]
    rw [if_pos hsys]

/-- Claim C3, witness: rm of the System file /etc/passwd, rmdir of the
System directory /bin, and chmod of /etc/passwd all fail with
PermissionDenied and change nothing. -/
theorem C3_amended_witness :
    fs_rm fs_init "etc/passwd".toList = (fs_init, some FsErr.permissionDenied) ∧
    fs_rmdir fs_init "bin".toList = (fs_init, some FsErr.permissionDenied) ∧
    fs_chmod fs_init "etc/passwd".toList 7 = (fs_init, some FsErr.permissionDenied) := by
  have h1 := C3_amended fs_init "etc/passwd".toList (Ref.pool 2) (Ref.pool 5)
    (by decide) (by decide) (by decide)
  have h2 := C3_amended fs_init "bin".toList Ref.root (Ref.pool 1)
    (by decide) (by decide) (by decide)
  exact ⟨h1.1 (by decide), h2.2.1 (by decide), h1.2.2 7 (by decide)⟩

/-! Section: Claims C4 and C9: buffer indices in name handling -/

/-- Claim C4: for a slash-free mkdir path of 16 characters the copy loop
fills indices 0..14 of the 16-byte `new_dir_name` buffer, but the NUL
terminator is stored at index `strlen(path)` = 16 — one past the end of
the buffer (and index 15 is left unwritten), so the stored name is not
the 15-character truncation the claim requires. -/
theorem C4_mkdir_name_oob :
    (16 : Nat) ∈ fs_mkdir_name_writes ("aaaaaaaaaaaaaaaa".toList) ∧
    ¬ ((15 : Nat) ∈ fs_mkdir_name_writes ("aaaaaaaaaaaaaaaa".toList)) ∧
    ¬ (∀ w ∈ fs_mkdir_name_writes ("aaaaaaaaaaaaaaaa".toList), w < MAX_NAME) := by
  decide

/-- Claim C9: for a path whose final component has 16 characters and no
trailing slash, fs_traverse_path's splitting loop appends the final
character at `temp[15]` and then stores the NUL terminator at
`temp[16]` — one past the end of the 16-byte `temp` buffer — so not
every write stays strictly below MAX_NAME. -/
theorem C9_traverse_temp_oob :
    (16 : Nat) ∈ fs_traverse_path_temp_writes ("aaaaaaaaaaaaaaaa".toList) ∧
    ¬ (∀ w ∈ fs_traverse_path_temp_writes ("aaaaaaaaaaaaaaaa".toList), w < MAX_NAME) := by
  decide

/-! Section: Claim C5: arena exhaustion -/

/-- Claim C5: once the node pool has reached MAX_NODES allocations,
every mkdir or touch whose other preconditions hold (parent resolves,
parent writable, name free, directory not full) fails with Exhausted
and returns the state unchanged, so no half-created node becomes visible. -/
theorem C5_exhausted (fs : FS) (p : List Char) (parent : Ref)
    (hfull : fs.pool.length ≥ MAX_NODES)
    (hpar : (resolveParent fs (splitParentName p).1).2 = some parent)
    (hw : fs_can_write (getNode fs parent) = true)
    (hfind : fs_find fs parent (splitParentName p).2 = none)
    (hcount : (getNode fs parent).children.length < MAX_FILES) :
    fs_mkdir fs p = (fs, some FsErr.exhausted) ∧
    (p.dropWhile (· = ' ') = p → p ≠ [] →
      ∀ perms : Nat, fs_touch_internal fs p perms = (fs, some FsErr.exhausted)) := by
  constructor
  · simp only [fs_mkdir, resolveParent_eq hpar]
    rw [if_neg (show ¬ ¬ fs_can_write (getNode fs parent) = true by simp [hw])]
    rw [if_neg (show ¬ (fs_find fs parent (splitParentName p).2).isSome = true by
      simp [hfind])]
    rw [if_neg (Nat.not_le.mpr hcount)]
    rw [if_pos hfull]
  · intro hdw hne perms
    simp only [fs_touch_internal, hdw]
    rw [if_neg hne]
    simp only [resolveParent_eq hpar]
    rw [if_neg (show ¬ ¬ fs_can_write (getNode fs parent) = true by simp [hw])]
    rw [if_neg (show ¬ (fs_find fs parent (splitParentName p).2).isSome = true by
      simp [hfind])]
    rw [if_neg (Nat.not_le.mpr hcount)]
    rw [if_pos hfull]

set_option maxRecDepth 100000 in
/-- Claim C5, witness: after 58 successful mkdirs the pool holds exactly
MAX_NODES = 64 nodes; the next mkdir and touch under the empty writable
directory p/c3 fail with Exhausted and leave the state unchanged. -/
theorem C5_exhausted_witness :
    C5_fs64.pool.length = MAX_NODES ∧
    fs_mkdir C5_fs64 "p/c3/g".toList = (C5_fs64, some FsErr.exhausted) ∧
    fs_touch C5_fs64 "p/c3/h".toList = (C5_fs64, some FsErr.exhausted) := by
  refine ⟨by decide, ?_, ?_⟩
  · exact (C5_exhausted C5_fs64 "p/c3/g".toList (Ref.pool 10)
      (by decide) (by decide) (by decide) (by decide) (by decide)).1
  · exact (C5_exhausted C5_fs64 "p/c3/h".toList (Ref.pool 10)
      (by decide) (by decide) (by decide) (by decide) (by decide)).2
      (by decide) (by decide) PERM_RW

/-! Section: Claim C6: per-bit permission gating -/

/-- Claim C6: permission gating holds independently for each bit.  For a
directory d: with Read disabled, ls of a path resolving to d fails with
PermissionDenied and lists nothing; with Write disabled, mkdir and touch
of a new child under d, and rm/rmdir of an existing non-system File/
Directory child of d, fail with PermissionDenied and leave the state
(hence d's children) unchanged; with Execute disabled, cd into d fails
with PermissionDenied and the cursor is unchanged. -/
theorem C6_perm_bits :
    (∀ (fs : FS) (p : List Char) (d : Ref),
      (if p = [] then some fs.cwd else (fs_traverse_path fs p false).2) = some d →
      (getNode fs d).type = NodeType.DIR_NODE →
      fs_can_read (getNode fs d) = false →
      fs_ls fs p = Except.error FsErr.permissionDenied) ∧
    (∀ (fs : FS) (p : List Char) (d : Ref),
      (resolveParent fs (splitParentName p).1).2 = some d →
      (getNode fs d).type = NodeType.DIR_NODE →
      fs_can_write (getNode fs d) = false →
      fs_mkdir fs p = (fs, some FsErr.permissionDenied)) ∧
    (∀ (fs : FS) (p : List Char) (d : Ref) (perms : Nat),
      p.dropWhile (· = ' ') ≠ [] →
      (resolveParent fs (splitParentName (p.dropWhile (· = ' '))).1).2 = some d →
      (getNode fs d).type = NodeType.DIR_NODE →
      fs_can_write (getNode fs d) = false →
      fs_touch_internal fs p perms = (fs, some FsErr.permissionDenied)) ∧
    (∀ (fs : FS) (p : List Char) (d c : Ref),
      p ≠ [] →
      (fs_find_with_parent fs p).2 = some (d, c) →
      (getNode fs d).type = NodeType.DIR_NODE →
      (getNode fs c).type = NodeType.FILE_NODE →
      fs_is_system (getNode fs c) = false →
      fs_can_write (getNode fs d) = false →
      fs_rm fs p = (fs, some FsErr.permissionDenied)) ∧
    (∀ (fs : FS) (p : List Char) (d c : Ref),
      p ≠ [] →
      (fs_find_with_parent fs p).2 = some (d, c) →
      (getNode fs d).type = NodeType.DIR_NODE →
      (getNode fs c).type = NodeType.DIR_NODE →
      fs_is_system (getNode fs c) = false →
      fs_can_write (getNode fs d) = false →
      fs_rmdir fs p = (fs, some FsErr.permissionDenied)) ∧
    (∀ (fs : FS) (p : List Char) (d : Ref),
      (fs_traverse_path fs p false).2 = some d →
      fs_can_exec (getNode fs d) = false →
      fs_cd fs p = (fs, some FsErr.permissionDenied)) := by
  refine ⟨?_, ?_, ?_, ?_, ?_, ?_⟩
  · intro fs p d hres hty hr
    simp only [fs_ls, fs_ls_internal, hres]
    rw [if_pos (show ¬ fs_can_read (getNode fs d) = true by simp [hr])]
  · intro fs p d hres hty hw
    simp only [fs_mkdir, resolveParent_eq hres]
    rw [if_pos (show ¬ fs_can_write (getNode fs d) = true by simp [hw])]
  · intro fs p d perms hne hres hty hw
    simp only [fs_touch_internal]
    rw [if_neg hne]
    simp only [resolveParent_eq hres]
    rw [if_pos (show ¬ fs_can_write (getNode fs d) = true by simp [hw])]
  · intro fs p d c hp0 hres htyd htyc hsys hw
    simp only [fs_rm, fs_find_with_parent_eq hres]
    rw [if_neg hp0]
    rw [if_neg (show ¬ (getNode fs c).type ≠ NodeType.FILE_NODE by simp [htyc])]
    rw [if_neg (show ¬ fs_is_system (getNode fs c) = true by simp [hsys])]
    rw [if_pos (show ¬ fs_can_write (getNode fs d) = true by simp [hw])]
  · intro fs p d c hp0 hres htyd htyc hsys hw
    simp only [fs_rmdir, fs_find_with_parent_eq hres]
    rw [if_neg hp0]
    rw [if_neg (show ¬ (getNode fs c).type ≠ NodeType.DIR_NODE by simp [htyc])]
    rw [if_neg (show ¬ fs_is_system (getNode fs c) = true by simp [hsys])]
    rw [if_pos (show ¬ fs_can_write (getNode fs d) = true by simp [hw])]
  · intro fs p d hres hx
    simp only [fs_cd, fs_traverse_path_eq hres]
    rw [if_pos (show ¬ fs_can_exec (getNode fs d) = true by simp [hx])]

/-- Claim C6, witness: in a state with home/nr (no Read bit, perms 3),
home/nw (no Write bit, perms 5, holding file f and subdirectory sd) and
home/nx (no Execute bit, perms 6), each gated operation fails with
PermissionDenied and changes nothing. -/
theorem C6_perm_bits_witness :
    fs_ls C6_fs "home/nr".toList = Except.error FsErr.permissionDenied ∧
    fs_mkdir C6_fs "home/nw/z".toList = (C6_fs, some FsErr.permissionDenied) ∧
    fs_touch C6_fs "home/nw/z2".toList = (C6_fs, some FsErr.permissionDenied) ∧
    fs_rm C6_fs "home/nw/f".toList = (C6_fs, some FsErr.permissionDenied) ∧
    fs_rmdir C6_fs "home/nw/sd".toList = (C6_fs, some FsErr.permissionDenied) ∧
    fs_cd C6_fs "home/nx".toList = (C6_fs, some FsErr.permissionDenied) := by
  obtain ⟨h1, h2, h3, h4, h5, h6⟩ := C6_perm_bits
  refine ⟨?_, ?_, ?_, ?_, ?_, ?_⟩
  · exact h1 C6_fs "home/nr".toList (Ref.pool 6) (by decide) (by decide) (by decide)
  · exact h2 C6_fs "home/nw/z".toList (Ref.pool 7) (by decide) (by decide) (by decide)
  · exact h3 C6_fs "home/nw/z2".toList (Ref.pool 7) PERM_RW (by decide) (by decide)
      (by decide) (by decide)
  · exact h4 C6_fs "home/nw/f".toList (Ref.pool 7) (Ref.pool 9) (by decide) (by decide)
      (by decide) (by decide) (by decide) (by decide)
  · exact h5 C6_fs "home/nw/sd".toList (Ref.pool 7) (Ref.pool 8) (by decide) (by decide)
      (by decide) (by decide) (by decide) (by decide)
  · exact h6 C6_fs "home/nx".toList (Ref.pool 10) (by decide) (by decide)

/-! Section: Claim C7: write semantics and write-protection -/

/-- Claim C7: for every path resolving to an existing File node, if the
file's Write bit is set then write replaces the content with the text
truncated to the 127-character capacity (NUL-terminated); if the Write
bit is clear then write fails with PermissionDenied, the state is
unchanged, and a subsequent cat of the same path returns exactly what it
returned before the failed write. -/
theorem C7_write (fs : FS) (p t : List Char) (parent file : Ref)
    (hpar : (resolveParent fs (splitParentName p).1).2 = some parent)
    (hfind : fs_find fs parent (splitParentName p).2 = some file)
    (hty : (getNode fs file).type = NodeType.FILE_NODE) :
    (fs_can_write (getNode fs file) = true →
      fs_write fs p t =
        (setNode fs file { getNode fs file with content := t.take 127 }, none)) ∧
    (fs_can_write (getNode fs file) = false →
      fs_write fs p t = (fs, some FsErr.permissionDenied) ∧
      fs_cat (fs_write fs p t).1 p = fs_cat fs p) := by
  constructor
  · intro hw
    simp only [fs_write, resolveParent_eq hpar, hfind]
    rw [if_neg (show ¬ (getNode fs file).type ≠ NodeType.FILE_NODE by simp [hty])]
    rw [if_neg (show ¬ ¬ fs_can_write (getNode fs file) = true by simp [hw])]
  · intro hw
    have hwr : fs_write fs p t = (fs, some FsErr.permissionDenied) := by
      simp only [fs_write, resolveParent_eq hpar, hfind]
      rw [if_neg (show ¬ (getNode fs file).type ≠ NodeType.FILE_NODE by simp [hty])]
      rw [if_pos (show ¬ fs_can_write (getNode fs file) = true by simp [hw])]
    exact ⟨hwr, by rw [hwr]⟩

/-- Claim C7, witness: the docs/a.txt scenario — after mkdir docs, touch
docs/a.txt, write hello, chmod 4, cat returns hello, a write of "bye"
fails with PermissionDenied, and cat still returns hello. -/
theorem C7_write_witness :
    fs_cat C7_s "docs/a.txt".toList = Except.ok "hello".toList ∧
    fs_write C7_s "docs/a.txt".toList "bye".toList = (C7_s, some FsErr.permissionDenied) ∧
    fs_cat (fs_write C7_s "docs/a.txt".toList "bye".toList).1 "docs/a.txt".toList =
      Except.ok "hello".toList := by
  have h := (C7_write C7_s "docs/a.txt".toList "bye".toList (Ref.pool 6) (Ref.pool 7)
    (by decide) (by decide) (by decide)).2 (by decide)
  refine ⟨by rfl, h.1, ?_⟩
  rw [h.1]
  rfl

/-! Section: Claim C8: the executable gate (spec-modelled) -/

/-- Claim C8: fs_get_executable returns the file's content exactly when
the path resolves to an existing node that is a File with the Execute
bit set, and returns nothing in every other case.  (The function is
declared in src/fs.h but not defined under src/, so it is modelled from
the spec; this theorem characterizes the model.) -/
theorem C8_get_executable (fs : FS) (p : List Char) :
    (∀ c : List Char,
      fs_get_executable fs p = some c ↔
        ∃ parent node : Ref, (fs_find_with_parent fs p).2 = some (parent, node) ∧
          (getNode fs node).type = NodeType.FILE_NODE ∧
          fs_can_exec (getNode fs node) = true ∧
          c = (getNode fs node).content) := by
  intro c
  simp only [fs_get_executable]
  rcases hfw : fs_find_with_parent fs p with ⟨fs1, res⟩
  have h1 : fs1 = fs := by
    have h := fs_find_with_parent_fst fs p
    rw [hfw] at h
    exact h
  subst h1
  cases res with
  | none =>
    simp
  | some pr =>
    rcases pr with ⟨parent, node⟩
    simp only
    constructor
    · intro h
      split at h
      · rename_i hcond
        refine ⟨parent, node, rfl, hcond.1, hcond.2, by injection h with h2; rw [h2]⟩
      · cases h
    · rintro ⟨parent2, node2, hres, hty, hx, hc⟩
      injection hres with hres2
      injection hres2 with hl hr
      subst hl
      subst hr
      rw [if_pos ⟨hty, hx⟩, hc]

/-- Claim C8, witness: in a state where home/run is a file with perms 7
and content "hi", fs_get_executable returns the content, while the
non-executable file /etc/passwd and the directory /bin yield nothing. -/
theorem C8_get_executable_witness :
    fs_get_executable C8_fs "home/run".toList = some "hi".toList ∧
    fs_get_executable C8_fs "etc/passwd".toList = none ∧
    fs_get_executable C8_fs "bin".toList = none := by
  refine ⟨?_, by decide, by decide⟩
  exact (C8_get_executable C8_fs "home/run".toList "hi".toList).mpr
    ⟨Ref.pool 3, Ref.pool 6, by decide, by decide, by decide, by decide⟩

/-! Section: Claim C10: empty-path behaviour of touch and mkdir -/

/-- Claim C10: touch with the empty path fails with the no-filename
error and changes no state, whereas mkdir with the empty path, when the
current directory is a valid reference, is writable, has no empty-named
child yet, is not full and the arena is not exhausted, succeeds and
appends to the current directory a fresh Directory child whose name is
the empty string. -/
theorem C10_empty_path (fs : FS) :
    fs_touch fs [] = (fs, some FsErr.noFilename) ∧
    (validRef fs fs.cwd →
     fs_can_write (getNode fs fs.cwd) = true →
     fs_find fs fs.cwd [] = none →
     (getNode fs fs.cwd).children.length < MAX_FILES →
     fs.pool.length < MAX_NODES →
     fs_mkdir fs [] = (attachNew fs fs.cwd [] NodeType.DIR_NODE PERM_RWX, none) ∧
     (getNode (fs_mkdir fs []).1 fs.cwd).children =
       (getNode fs fs.cwd).children ++ [Ref.pool fs.pool.length] ∧
     getNode (fs_mkdir fs []).1 (Ref.pool fs.pool.length) =
       { emptyNode with
         type := NodeType.DIR_NODE, parent := some fs.cwd,
         permissions := PERM_RWX, flags := 0, name := [] }) := by
  constructor
  · rfl
  · intro hv hw hfind hcount hpool
    have hsplit : splitParentName ([] : List Char) = ([], []) := rfl
    have hres : resolveParent fs (splitParentName ([] : List Char)).1 =
        (fs, some fs.cwd) := rfl
    have hmk : fs_mkdir fs [] = (attachNew fs fs.cwd [] NodeType.DIR_NODE PERM_RWX, none) := by
      simp only [fs_mkdir, hres]
      rw [if_neg (show ¬ ¬ fs_can_write (getNode fs fs.cwd) = true by simp [hw])]
      rw [if_neg (show ¬ (fs_find fs fs.cwd (splitParentName ([] : List Char)).2).isSome = true by
        simp [hsplit, hfind])]
      rw [if_neg (Nat.not_le.mpr hcount)]
      rw [if_neg (Nat.not_le.mpr hpool)]
      rfl
    refine ⟨hmk, ?_, ?_⟩
    · rw [hmk]
      simp only
      rw [getNode_attach_parent fs [] NodeType.DIR_NODE PERM_RWX hv]
    · rw [hmk]
      simp only
      rw [getNode_attach_new fs [] NodeType.DIR_NODE PERM_RWX hv]

/-- Claim C10, witness: at the bootstrap state touch "" fails with the
no-filename error, and mkdir "" appends an empty-named directory (pool
slot 6) to the root's children. -/
theorem C10_empty_path_witness :
    fs_touch fs_init [] = (fs_init, some FsErr.noFilename) ∧
    fs_mkdir fs_init [] = (attachNew fs_init Ref.root [] NodeType.DIR_NODE PERM_RWX, none) ∧
    (getNode (fs_mkdir fs_init []).1 Ref.root).children =
      [Ref.pool 1, Ref.pool 2, Ref.pool 3, Ref.pool 4, Ref.pool 6] ∧
    getNode (fs_mkdir fs_init []).1 (Ref.pool 6) =
      { emptyNode with
        type := NodeType.DIR_NODE, parent := some Ref.root,
        permissions := PERM_RWX, flags := 0, name := [] } := by
  have h := C10_empty_path fs_init
  have h2 := h.2 (by decide) (by decide) (by decide) (by decide) (by decide)
  exact ⟨h.1, h2.1, by decide, by decide⟩

end RiscvOS
